import Mathlib

/-!
# Cut flow and projected missing energy: a verification development

A shallow embedding of the event-selection code of the repository:

* `src/Electron_Cut_Flow.C` : the six-stage cut flow over a table of events;
* `src/Scripts/projected_MET.C` : `deltaPhi` and the per-event derivation of
  `delta_phi_1`, `delta_phi_2`, `delta_phi_min`, `projected_MET`;
* `src/superimposed_plots.C` : `processTree` and the per-sample normalisation.

Modelling conventions.

* `Float_t` / `double` values are elements of a linear ordered field `α`
  (exact arithmetic: rounding, infinities and NaN are not modelled).  The
  definitions are computable and run on `ℚ`; statements that mention the
  circle constant or the sine are stated on `ℝ`.
* C arrays with a separate count (`Electron_pt[10]`, `nElectron`) are index
  functions `Nat → _`; the count is `nElectron`.  The cut flow reads its
  arrays at every index below `nElectron` although they hold 10 slots, so the
  model follows the code only for `nElectron ≤ 10`; the statements that count
  events carry that bound (`WithinLimits`).
* The `Int_t` particle codes are integers and their product is the 32-bit
  product (`mulInt32`): what the machine leaves after wrap-around.
* The event counters (`int`) are natural numbers; they follow the code while
  they stay below 2^31 (`Counters.FitsInt`).
* `TLorentzVector`, `std::sin` and `M_PI` come from outside the repository and
  are parameters (`LorentzOps`, `sin`, `pi`).
* `TH1F` is the structure `TH1`: a bin array with underflow and overflow bins,
  after the documented behaviour of `Fill`, `Integral` and `Scale`; the axis
  lookup is a parameter of the histogram.
* The statements on the two-body combination itself use the spec's description
  of it (`specLorentzOps`), with the elementary functions as parameters.
* The `while` loops of `deltaPhi` take a bound on the number of iterations
  (`fuel`) and return `none` when the bound is exceeded.
-/

namespace MscDiss

/-! ## Data model -/

/-- One row of the `Events` tree: the branches read by the three sources. -/
structure Event (α : Type) where
  nElectron : Nat
  Electron_pt : Nat → α
  Electron_eta : Nat → α
  Electron_phi : Nat → α
  Electron_pdgId : Nat → Int
  Electron_mvaFall17V2Iso_WP90 : Nat → Bool
  PuppiMET_pt : α
  PuppiMET_phi : α
  projected_MET : α

/-- The operations of ROOT's `TLorentzVector` that the sources call.  The class
is not part of the repository, so it is a parameter of the model. -/
structure LorentzOps (α : Type) where
  Vec : Type
  SetPtEtaPhiM : α → α → α → α → Vec
  add : Vec → Vec → Vec
  M : Vec → α
  Pt : Vec → α
  DeltaPhi : Vec → Vec → α

/-- The six counters `eventAfterstage1` .. `eventAfterstage6`
(`Electron_Cut_Flow.C`, lines 73-78). -/
structure Counters where
  eventAfterstage1 : Nat
  eventAfterstage2 : Nat
  eventAfterstage3 : Nat
  eventAfterstage4 : Nat
  eventAfterstage5 : Nat
  eventAfterstage6 : Nat
deriving DecidableEq

/-- All counters at zero (lines 73-78). -/
def Counters.zero : Counters := ⟨0, 0, 0, 0, 0, 0⟩

/-- A mathematical integer brought into the range of a 32-bit two's-complement
`Int_t`. -/
def wrapInt32 (x : Int) : Int :=
  (x + 2147483648) % 4294967296 - 2147483648

/-- The product of two `Int_t` values as the machine computes it: the exact
product wrapped to 32 bits. -/
def mulInt32 (a b : Int) : Int :=
  wrapInt32 (a * b)

section CutFlow

variable {α : Type} [LinearOrderedField α]

/-! ## `Electron_Cut_Flow.C` -/

/-- The loop of lines 85-90: the indices `j < nElectron` whose identification
flag is set, pushed in ascending order.  The flag array holds 10 slots, so the
reads are those of the code when `nElectron ≤ 10`. -/
def tightElectrons (e : Event α) : List Nat :=
  (List.range e.nElectron).foldl
    (fun acc j => if e.Electron_mvaFall17V2Iso_WP90 j then acc ++ [j] else acc) []

/-- The electron mass passed to `SetPtEtaPhiM` (lines 109-110). -/
def electronMass : α := 511 / 1000000

/-- The body of the event loop, lines 82-133: one event updates the counters. -/
def cutFlowStep (L : LorentzOps α) (c : Counters) (e : Event α) : Counters :=
  match tightElectrons e with
  | [i1, i2] =>
    if mulInt32 (e.Electron_pdgId i1) (e.Electron_pdgId i2) < 0 then
      let c1 := { c with eventAfterstage1 := c.eventAfterstage1 + 1 }
      let lead := if e.Electron_pt i1 > e.Electron_pt i2 then i1 else i2
      let sublead := if lead = i1 then i2 else i1
      if e.Electron_pt lead > 25 ∧ e.Electron_pt sublead > 20 ∧
          |e.Electron_eta lead| < 5 / 2 ∧ |e.Electron_eta sublead| < 5 / 2 then
        let c2 := { c1 with eventAfterstage2 := c1.eventAfterstage2 + 1 }
        let el1 := L.SetPtEtaPhiM (e.Electron_pt lead) (e.Electron_eta lead)
          (e.Electron_phi lead) electronMass
        let el2 := L.SetPtEtaPhiM (e.Electron_pt sublead) (e.Electron_eta sublead)
          (e.Electron_phi sublead) electronMass
        let dilepton := L.add el1 el2
        let mll := L.M dilepton
        let ptll := L.Pt dilepton
        let dphill := |L.DeltaPhi el1 el2|
        if mll > 60 ∧ mll < 120 then
          let c3 := { c2 with eventAfterstage3 := c2.eventAfterstage3 + 1 }
          if e.projected_MET < 25 then
            let c4 := { c3 with eventAfterstage4 := c3.eventAfterstage4 + 1 }
            if ptll < 40 then
              let c5 := { c4 with eventAfterstage5 := c4.eventAfterstage5 + 1 }
              if dphill > 5 / 2 then
                { c5 with eventAfterstage6 := c5.eventAfterstage6 + 1 }
              else c5
            else c4
          else c3
        else c2
      else c1
    else c
  | _ => c

/-- The event loop of lines 81-134 from given counters. -/
def cutFlowLoop (L : LorentzOps α) (c : Counters) (events : List (Event α)) : Counters :=
  events.foldl (cutFlowStep L) c

/-- What `Electron_Cut_Flow` prints (lines 137-145): the number of entries and
the six counters after the loop started from zero. -/
def Electron_Cut_Flow (L : LorentzOps α) (events : List (Event α)) : Nat × Counters :=
  (events.length, cutFlowLoop L Counters.zero events)

/-- Lines 92-101 as a function of the event: the (lead, sublead) pair that the
cut flow forms, `none` when the event leaves the loop body before line 100. -/
def selection (e : Event α) : Option (Nat × Nat) :=
  match tightElectrons e with
  | [i1, i2] =>
    if mulInt32 (e.Electron_pdgId i1) (e.Electron_pdgId i2) < 0 then
      let lead := if e.Electron_pt i1 > e.Electron_pt i2 then i1 else i2
      let sublead := if lead = i1 then i2 else i1
      some (lead, sublead)
    else none
  | _ => none

/-- Lines 100-101 alone: `(lead, sublead)` from the two tight indices. -/
def cutFlowRank (e : Event α) (i1 i2 : Nat) : Nat × Nat :=
  let lead := if e.Electron_pt i1 > e.Electron_pt i2 then i1 else i2
  let sublead := if lead = i1 then i2 else i1
  (lead, sublead)

/-- Lines 108-115 for a given (lead, sublead): `(mll, ptll, dphill)`. -/
def dileptonOf (L : LorentzOps α) (e : Event α) (p : Nat × Nat) : α × α × α :=
  let el1 := L.SetPtEtaPhiM (e.Electron_pt p.1) (e.Electron_eta p.1)
    (e.Electron_phi p.1) electronMass
  let el2 := L.SetPtEtaPhiM (e.Electron_pt p.2) (e.Electron_eta p.2)
    (e.Electron_phi p.2) electronMass
  let dilepton := L.add el1 el2
  (L.M dilepton, L.Pt dilepton, |L.DeltaPhi el1 el2|)

/-! ## `superimposed_plots.C`: ranking in `processTree` -/

/-- Lines 68-69 of `processTree`: `(lead, sub)` from the two tight indices. -/
def processTreeRank (e : Event α) (i1 i2 : Nat) : Nat × Nat :=
  let lead := if e.Electron_pt i1 > e.Electron_pt i2 then i1 else i2
  let sub := if lead = i1 then i2 else i1
  (lead, sub)

/-! ## Stage predicates, as the cut-flow description words them -/

/-- The set of indices `j < nElectron` whose identification flag is set. -/
def flagged (e : Event α) : Finset Nat :=
  (Finset.range e.nElectron).filter (fun j => e.Electron_mvaFall17V2Iso_WP90 j = true)

/-- Stage 1: exactly two flagged indices, and the product of their codes is
negative. -/
def stage1 (e : Event α) : Bool :=
  decide ((flagged e).card = 2 ∧ (∏ j ∈ flagged e, e.Electron_pdgId j) < 0)

/-- Stage 2: the larger pt of the flagged objects exceeds 25, the smaller one
exceeds 20, and every flagged object has |eta| < 2.5. -/
def stage2 (e : Event α) : Bool :=
  decide ((∃ j ∈ flagged e, e.Electron_pt j > 25) ∧
    (∀ j ∈ flagged e, e.Electron_pt j > 20) ∧
    (∀ j ∈ flagged e, |e.Electron_eta j| < 5 / 2))

/-- Stage 3: 60 < mll < 120. -/
def stage3 (L : LorentzOps α) (e : Event α) : Bool :=
  match selection e with
  | some p => decide (60 < (dileptonOf L e p).1 ∧ (dileptonOf L e p).1 < 120)
  | none => false

/-- Stage 4: the stored `projected_MET` is below 25. -/
def stage4 (e : Event α) : Bool :=
  decide (e.projected_MET < 25)

/-- Stage 5: ptll < 40. -/
def stage5 (L : LorentzOps α) (e : Event α) : Bool :=
  match selection e with
  | some p => decide ((dileptonOf L e p).2.1 < 40)
  | none => false

/-- Stage 6: |dphi_ll| > 2.5. -/
def stage6 (L : LorentzOps α) (e : Event α) : Bool :=
  match selection e with
  | some p => decide ((dileptonOf L e p).2.2 > 5 / 2)
  | none => false

/-- The conjunction of the stage predicates 1..k (k = 1..6). -/
def passesUpTo (L : LorentzOps α) (k : Nat) (e : Event α) : Bool :=
  stage1 e && (k < 2 || stage2 e) && (k < 3 || stage3 L e) && (k < 4 || stage4 e) &&
    (k < 5 || stage5 L e) && (k < 6 || stage6 L e)

/-- What the loop body tests up to stage k (k = 1..6): the event reached line
98 (`selection` formed a pair) and the conditions of stages 2..k hold. -/
def reachesUpTo (L : LorentzOps α) (k : Nat) (e : Event α) : Bool :=
  (selection e).isSome && (k < 2 || stage2 e) && (k < 3 || stage3 L e) &&
    (k < 4 || stage4 e) && (k < 5 || stage5 L e) && (k < 6 || stage6 L e)

/-- An event within the limits of its C types: at most 10 objects (the
capacity of the arrays of the cut flow) and particle codes whose pairwise
products fit in a 32-bit `Int_t`. -/
def WithinLimits (e : Event α) : Prop :=
  e.nElectron ≤ 10 ∧
  ∀ i j, i < e.nElectron → j < e.nElectron →
    -2147483648 ≤ e.Electron_pdgId i * e.Electron_pdgId j ∧
    e.Electron_pdgId i * e.Electron_pdgId j < 2147483648

end CutFlow

section ProjectedMET

variable {α : Type} [LinearOrderedField α]

/-! ## `Scripts/projected_MET.C` -/

/-- Line 36, `while (dphi > M_PI) dphi -= 2 * M_PI;`, with at most `fuel`
executions of the body. -/
def deltaPhiLoop1 (pi : α) : Nat → α → Option α
  | 0, dphi => if dphi > pi then none else some dphi
  | fuel + 1, dphi => if dphi > pi then deltaPhiLoop1 pi fuel (dphi - 2 * pi) else some dphi

/-- Line 37, `while (dphi <= -M_PI) dphi += 2 * M_PI;`, with at most `fuel`
executions of the body. -/
def deltaPhiLoop2 (pi : α) : Nat → α → Option α
  | 0, dphi => if dphi ≤ -pi then none else some dphi
  | fuel + 1, dphi => if dphi ≤ -pi then deltaPhiLoop2 pi fuel (dphi + 2 * pi) else some dphi

/-- The function `deltaPhi` (lines 34-39) read in exact arithmetic: the `float`
variable `dphi` and the `double` constant `M_PI` (here `pi`) are elements of
one field and no step rounds.  The reading agrees with the code where no
rounding occurs (a difference that is a `float` and needs no loop iteration);
how many iterations the `float` loop takes, and what it returns after one, is
not described by it. -/
def deltaPhi (pi : α) (fuel : Nat) (phi1 phi2 : α) : Option α :=
  (deltaPhiLoop1 pi fuel (phi1 - phi2)).bind (deltaPhiLoop2 pi fuel)

/-- Line 61. -/
def MAX_ELECTRONS : Nat := 10

/-- Lines 118-122: the count after truncation to the capacity. -/
def truncatedCount (e : Event α) : Nat :=
  if e.nElectron > MAX_ELECTRONS then MAX_ELECTRONS else e.nElectron

/-- The body of the ranking loop, lines 125-130, on `(leadIdx, subleadIdx)`. -/
def rankStep (e : Event α) (s : Int × Int) (j : Nat) : Int × Int :=
  if s.1 = -1 ∨ e.Electron_pt j > e.Electron_pt s.1.toNat then ((j : Int), s.1)
  else if s.2 = -1 ∨ e.Electron_pt j > e.Electron_pt s.2.toNat then (s.1, (j : Int))
  else s

/-- Lines 117-131: `(leadIdx, subleadIdx)` after the ranking loop. -/
def rankLoop (e : Event α) : Int × Int :=
  (List.range (truncatedCount e)).foldl (rankStep e) (-1, -1)

/-- The four branches filled for one entry (lines 106-109, 156-159). -/
structure Derived (α : Type) where
  delta_phi_1 : α
  delta_phi_2 : α
  delta_phi_min : α
  projected_MET : α

/-- Lines 142-154: `delta_phi_min` and `projected_MET` from the two indices
and the two angle differences. -/
def fillDerived (pi : α) (sin : α → α) (e : Event α) (s : Int × Int)
    (delta_phi_1 delta_phi_2 : α) : Derived α :=
  if s.1 ≠ -1 ∧ s.2 ≠ -1 then
    let delta_phi_min := if |delta_phi_1| < |delta_phi_2| then delta_phi_1 else delta_phi_2
    let abs_delta_phi_min := |delta_phi_min|
    ⟨delta_phi_1, delta_phi_2, delta_phi_min,
      if abs_delta_phi_min < pi / 2 then e.PuppiMET_pt * sin abs_delta_phi_min
      else e.PuppiMET_pt⟩
  else if s.1 ≠ -1 then ⟨delta_phi_1, delta_phi_2, delta_phi_1, e.PuppiMET_pt⟩
  else ⟨delta_phi_1, delta_phi_2, 0, 0⟩

/-- The body of the entry loop of `projected_MET()` (lines 113-159): the four
values written for the event, `none` when a call of `deltaPhi` exceeds `fuel`. -/
def projected_MET_entry (pi : α) (sin : α → α) (fuel : Nat) (e : Event α) :
    Option (Derived α) :=
  let s := rankLoop e
  (if s.1 ≠ -1 then deltaPhi pi fuel e.PuppiMET_phi (e.Electron_phi s.1.toNat)
    else some 0).bind fun delta_phi_1 =>
  (if s.2 ≠ -1 then deltaPhi pi fuel e.PuppiMET_phi (e.Electron_phi s.2.toNat)
    else some 0).bind fun delta_phi_2 =>
  some (fillDerived pi sin e s delta_phi_1 delta_phi_2)

end ProjectedMET

/-! ## Predicates and sample data used in the statements -/

/-- Every counter can still be incremented as an `int`: each is below
2^31 - 1. -/
def Counters.FitsInt (c : Counters) : Prop :=
  c.eventAfterstage1 < 2147483647 ∧ c.eventAfterstage2 < 2147483647 ∧
  c.eventAfterstage3 < 2147483647 ∧ c.eventAfterstage4 < 2147483647 ∧
  c.eventAfterstage5 < 2147483647 ∧ c.eventAfterstage6 < 2147483647

/-- An event from explicit arrays (slots beyond the lists read 0, `false`). -/
def mkEvent {α : Type} [Zero α] (n : Nat) (pt eta phi : List α) (pdgId : List Int)
    (flag : List Bool) (metPt metPhi projMET : α) : Event α :=
  { nElectron := n
    Electron_pt := fun j => pt.getD j 0
    Electron_eta := fun j => eta.getD j 0
    Electron_phi := fun j => phi.getD j 0
    Electron_pdgId := fun j => pdgId.getD j 0
    Electron_mvaFall17V2Iso_WP90 := fun j => flag.getD j false
    PuppiMET_pt := metPt
    PuppiMET_phi := metPhi
    projected_MET := projMET }

/-- Two tight electrons of opposite sign. -/
def evOpposite : Event ℚ :=
  mkEvent 2 [30, 22] [1 / 10, -1 / 5] [0, 3 / 2] [11, -11] [true, true] 50 1 10

/-- Three electrons, the first and the last tight, of opposite sign. -/
def evOpposite3 : Event ℚ :=
  mkEvent 3 [40, 90, 35] [0, 1, 0] [0, 1, 3] [-11, 11, 11] [true, false, true] 50 1 10

/-- Two tight electrons of the same sign. -/
def evSameSign : Event ℚ :=
  mkEvent 2 [30, 22] [1 / 10, -1 / 5] [0, 3 / 2] [11, 11] [true, true] 50 1 10

/-- A three-event table: two opposite-sign events and a same-sign one. -/
def table3 : List (Event ℚ) := [evOpposite, evSameSign, evOpposite3]

/-- Two tight electrons with the same code 50000, whose product exceeds the
range of `Int_t`. -/
def evBigCodes : Event ℚ :=
  mkEvent 2 [30, 22] [1 / 10, -1 / 5] [0, 3 / 2] [50000, 50000] [true, true] 50 1 10

/-- Two tight electrons of opposite sign and identical pt. -/
def evTie : Event ℚ :=
  mkEvent 2 [30, 30] [1 / 10, -1 / 5] [0, 3 / 2] [11, -11] [true, true] 50 1 10

/-- One object at azimuth 0, missing energy 50 at azimuth 1. -/
def evSingle (α : Type) [LinearOrderedField α] : Event α :=
  mkEvent 1 [30] [0] [0] [11] [true] 50 1 0

/-- Two tight objects at azimuth 0 with missing energy 50 at azimuth `metPhi`. -/
def evPair {α : Type} [LinearOrderedField α] (metPhi : α) : Event α :=
  mkEvent 2 [30, 22] [1 / 10, -1 / 5] [0, 0] [11, -11] [true, true] 50 metPhi 0

/-- Three objects: the one of highest pt (index 0, azimuth 1) fails the
identification, the other two (azimuth 0) pass it with opposite signs. -/
def evThree (α : Type) [LinearOrderedField α] : Event α :=
  mkEvent 3 [100, 30, 20] [0, 0, 0] [1, 0, 0] [11, 11, -11] [false, true, true] 50 0 0

/-- What the ranking loop has established after the indices below `m`:
`leadIdx` is the first index of maximal pt and `subleadIdx` is another index
whose pt is maximal among the rest; `-1` marks an index not yet set. -/
def RankInv {α : Type} [LinearOrder α] (e : Event α) (m : Nat) (s : Int × Int) : Prop :=
  (m = 0 → s = (-1, -1)) ∧
  (1 ≤ m → ∃ l : Nat, l < m ∧ s.1 = (l : Int) ∧
    (∀ k, k < m → e.Electron_pt k ≤ e.Electron_pt l) ∧
    (∀ k, k < l → e.Electron_pt k < e.Electron_pt l)) ∧
  (m = 1 → s.2 = -1) ∧
  (2 ≤ m → ∃ t : Nat, t < m ∧ s.2 = (t : Int) ∧ (t : Int) ≠ s.1 ∧
    ∀ k, k < m → (k : Int) ≠ s.1 → e.Electron_pt k ≤ e.Electron_pt t)

/-! ## `superimposed_plots.C`: histograms, `processTree`, normalisation -/

section Histograms

variable {α : Type} [LinearOrderedField α]

/-- Lines 53-60 of `processTree`: `(mll, ptll, dphill)` with the two objects
taken in index order. -/
def processTreeDilepton (L : LorentzOps α) (e : Event α) (i1 i2 : Nat) : α × α × α :=
  let e1 := L.SetPtEtaPhiM (e.Electron_pt i1) (e.Electron_eta i1)
    (e.Electron_phi i1) electronMass
  let e2 := L.SetPtEtaPhiM (e.Electron_pt i2) (e.Electron_eta i2)
    (e.Electron_phi i2) electronMass
  let dilepton := L.add e1 e2
  (L.M dilepton, L.Pt dilepton, |L.DeltaPhi e1 e2|)

end Histograms

/-- The elementary functions that the four-vector relations use (`cos`, `sin`,
`sinh`, `sqrt`, and `atan2 y x` for the azimuth of a vector); they come from
the C library and are parameters. -/
structure MathFns (α : Type) where
  cos : α → α
  sin : α → α
  sinh : α → α
  sqrt : α → α
  atan2 : α → α → α

/-- Cartesian components of a four-vector. -/
structure FourVector (α : Type) where
  px : α
  py : α
  pz : α
  E : α

section TwoBody

variable {α : Type} [LinearOrderedField α] [FloorRing α]

/-- Modelled from the spec: `normalizeAngleDifference` of section 4.1 as a
total function. It runs the source's `deltaPhi` with an iteration bound of
`⌈|phiA - phiB| / (2 pi)⌉`, and returns the plain difference should the loops
not stop within it. -/
def normalizeAngleDifference (pi : α) (phiA phiB : α) : α :=
  (deltaPhi pi ⌈|phiA - phiB| / (2 * pi)⌉₊ phiA phiB).getD (phiA - phiB)

/-- Modelled from the spec: the two-body combination of section 4.1
(`twoBodyMass`, `twoBodyPt`, `angularSeparation`), which stands for ROOT's
`TLorentzVector`, a class that is not in the repository. An object
`(pt, eta, phi, m)` is the four-vector with `px = pt cos phi`,
`py = pt sin phi`, `pz = pt sinh eta` and `E = sqrt (p² + m²)`; the sum is
taken component by component; the mass is the Minkowski norm of the sum, the
transverse momentum is `sqrt (px² + py²)`, and the angular difference is
`normalizeAngleDifference` of the two azimuths. -/
def specLorentzOps (F : MathFns α) (pi : α) : LorentzOps α :=
  { Vec := FourVector α
    SetPtEtaPhiM := fun pt eta phi m =>
      { px := pt * F.cos phi
        py := pt * F.sin phi
        pz := pt * F.sinh eta
        E := F.sqrt (pt * F.cos phi * (pt * F.cos phi) + pt * F.sin phi * (pt * F.sin phi) +
          pt * F.sinh eta * (pt * F.sinh eta) + m * m) }
    add := fun u v =>
      { px := u.px + v.px, py := u.py + v.py, pz := u.pz + v.pz, E := u.E + v.E }
    M := fun v => F.sqrt (v.E * v.E - v.px * v.px - v.py * v.py - v.pz * v.pz)
    Pt := fun v => F.sqrt (v.px * v.px + v.py * v.py)
    DeltaPhi := fun u v =>
      normalizeAngleDifference pi (F.atan2 u.py u.px) (F.atan2 v.py v.px) }

end TwoBody

/-- Two tight opposite-sign electrons of pt 50 and 40 at pseudorapidity 0 and
azimuths 0 and `phi2`, with the stored `projected_MET` given. -/
def evZ {α : Type} [LinearOrderedField α] (phi2 projMET : α) : Event α :=
  mkEvent 2 [50, 40] [0, 0] [0, phi2] [11, -11] [true, true] 50 1 projMET

/-! ## Array reads of the ranking loop -/

section Reads

variable {α : Type} [LinearOrderedField α]

/-- The indices with which one iteration of the ranking loop (lines 125-130)
reads `Electron_pt`, in evaluation order; `||` does not evaluate its right
operand when `leadIdx == -1` (resp. `subleadIdx == -1`) holds. -/
def rankStepReads (e : Event α) (s : Int × Int) (j : Nat) : List Int :=
  if s.1 = -1 then []
  else if e.Electron_pt j > e.Electron_pt s.1.toNat then [(j : Int), s.1]
  else if s.2 = -1 then [(j : Int), s.1]
  else [(j : Int), s.1, (j : Int), s.2]

/-- The ranking loop (lines 117-131) together with the list of all indices
with which it reads `Electron_pt`. -/
def rankTrace (e : Event α) : (Int × Int) × List Int :=
  (List.range (truncatedCount e)).foldl
    (fun st j => (rankStep e st.1 j, st.2 ++ rankStepReads e st.1 j)) ((-1, -1), [])

/-- The indices with which lines 133-140 read `Electron_phi`. -/
def phiReads (e : Event α) : List Int :=
  (if (rankLoop e).1 ≠ -1 then [(rankLoop e).1] else []) ++
    (if (rankLoop e).2 ≠ -1 then [(rankLoop e).2] else [])

end Reads

/-! # Theorems -/

/-! ## Lemmas on the tight-electron list -/

section TightLemmas

variable {α : Type}

theorem foldl_push_eq_filter (p : Nat → Bool) (l : List Nat) (init : List Nat) :
    l.foldl (fun acc j => if p j then acc ++ [j] else acc) init = init ++ l.filter p := by
  induction l generalizing init with
  | nil => simp
  | cons x xs ih =>
    rw [List.foldl_cons, ih]
    by_cases hx : p x = true <;> simp [List.filter_cons, hx]

theorem tightElectrons_eq_filter (e : Event α) :
    tightElectrons e = (List.range e.nElectron).filter e.Electron_mvaFall17V2Iso_WP90 := by
  unfold tightElectrons
  rw [foldl_push_eq_filter]
  simp

theorem tightElectrons_nodup (e : Event α) : (tightElectrons e).Nodup := by
  rw [tightElectrons_eq_filter]
  exact (List.nodup_range _).filter _

theorem flagged_eq_toFinset (e : Event α) : flagged e = (tightElectrons e).toFinset := by
  ext j
  simp [flagged, tightElectrons_eq_filter]

theorem flagged_card (e : Event α) : (flagged e).card = (tightElectrons e).length := by
  rw [flagged_eq_toFinset, List.toFinset_card_of_nodup (tightElectrons_nodup e)]

theorem tight_pair_ne {e : Event α} {i1 i2 : Nat} (h : tightElectrons e = [i1, i2]) :
    i1 ≠ i2 := by
  have := tightElectrons_nodup e
  rw [h] at this
  simpa using this

theorem flagged_of_tight {e : Event α} {i1 i2 : Nat} (h : tightElectrons e = [i1, i2]) :
    flagged e = {i1, i2} := by
  rw [flagged_eq_toFinset, h]
  ext j
  simp

theorem stage1_of_length_ne {e : Event α} (h : (tightElectrons e).length ≠ 2) :
    stage1 e = false := by
  simp [stage1, flagged_card, h]

theorem stage1_of_tight {e : Event α} {i1 i2 : Nat} (h : tightElectrons e = [i1, i2]) :
    stage1 e = decide (e.Electron_pdgId i1 * e.Electron_pdgId i2 < 0) := by
  have hne := tight_pair_ne h
  unfold stage1
  rw [flagged_card, h, flagged_of_tight h, Finset.prod_pair hne]
  simp

theorem tightElectrons_sorted (e : Event α) : (tightElectrons e).Pairwise (· < ·) := by
  rw [tightElectrons_eq_filter]
  exact List.Pairwise.filter _ (List.pairwise_lt_range _)

theorem tight_pair_lt {e : Event α} {i1 i2 : Nat} (h : tightElectrons e = [i1, i2]) :
    i1 < i2 := by
  have := tightElectrons_sorted e
  rw [h] at this
  simpa using this

theorem tight_pair_lt_count {e : Event α} {i1 i2 : Nat} (h : tightElectrons e = [i1, i2]) :
    i2 < e.nElectron := by
  have hm : i2 ∈ tightElectrons e := by rw [h]; simp
  rw [tightElectrons_eq_filter] at hm
  simpa using (List.mem_filter.mp hm).1

theorem flag_false_of_not_tight {e : Event α} {i1 i2 : Nat}
    (h : tightElectrons e = [i1, i2]) {k : Nat} (hk : k < e.nElectron) (h1 : k ≠ i1)
    (h2 : k ≠ i2) : e.Electron_mvaFall17V2Iso_WP90 k = false := by
  by_contra hc
  have hm : k ∈ tightElectrons e := by
    rw [tightElectrons_eq_filter]
    exact List.mem_filter.mpr ⟨List.mem_range.mpr hk, by simpa using hc⟩
  rw [h] at hm
  simp at hm
  rcases hm with rfl | rfl
  · exact h1 rfl
  · exact h2 rfl

end TightLemmas

section CutFlowLemmas

variable {α : Type} [LinearOrderedField α]

theorem stage2_of_tight {e : Event α} {i1 i2 : Nat} (h : tightElectrons e = [i1, i2]) :
    stage2 e = decide
      (e.Electron_pt (if e.Electron_pt i1 > e.Electron_pt i2 then i1 else i2) > 25 ∧
       e.Electron_pt (if (if e.Electron_pt i1 > e.Electron_pt i2 then i1 else i2) = i1
          then i2 else i1) > 20 ∧
       |e.Electron_eta (if e.Electron_pt i1 > e.Electron_pt i2 then i1 else i2)| < 5 / 2 ∧
       |e.Electron_eta (if (if e.Electron_pt i1 > e.Electron_pt i2 then i1 else i2) = i1
          then i2 else i1)| < 5 / 2) := by
  have hne := tight_pair_ne h
  have hne2 : i2 ≠ i1 := fun h => hne h.symm
  unfold stage2
  rw [flagged_of_tight h]
  congr 1
  apply propext
  by_cases hgt : e.Electron_pt i1 > e.Electron_pt i2
  · simp only [hgt, if_true, Finset.mem_insert, Finset.mem_singleton]
    constructor
    · rintro ⟨⟨j, hj, h25⟩, h20, heta⟩
      refine ⟨?_, h20 i2 (Or.inr rfl), heta i1 (Or.inl rfl), heta i2 (Or.inr rfl)⟩
      rcases hj with rfl | rfl
      · exact h25
      · exact lt_trans h25 hgt
    · rintro ⟨h25, h20, e1, e2⟩
      refine ⟨⟨i1, Or.inl rfl, h25⟩, ?_, ?_⟩
      · rintro j (rfl | rfl)
        · exact lt_trans h20 hgt
        · exact h20
      · rintro j (rfl | rfl)
        · exact e1
        · exact e2
  · simp only [hgt, if_false, hne2, Finset.mem_insert, Finset.mem_singleton]
    have hle : e.Electron_pt i1 ≤ e.Electron_pt i2 := not_lt.mp hgt
    constructor
    · rintro ⟨⟨j, hj, h25⟩, h20, heta⟩
      refine ⟨?_, h20 i1 (Or.inl rfl), heta i2 (Or.inr rfl), heta i1 (Or.inl rfl)⟩
      rcases hj with rfl | rfl
      · exact lt_of_lt_of_le h25 hle
      · exact h25
    · rintro ⟨h25, h20, e2, e1⟩
      refine ⟨⟨i2, Or.inr rfl, h25⟩, ?_, ?_⟩
      · rintro j (rfl | rfl)
        · exact h20
        · exact lt_of_lt_of_le h20 hle
      · rintro j (rfl | rfl)
        · exact e1
        · exact e2

theorem selection_of_length_ne {e : Event α} (h : (tightElectrons e).length ≠ 2) :
    selection e = none := by
  unfold selection
  split
  · rename_i i1 i2 heq
    rw [heq] at h
    simp at h
  · rfl

theorem selection_of_tight {e : Event α} {i1 i2 : Nat} (h : tightElectrons e = [i1, i2]) :
    selection e = if mulInt32 (e.Electron_pdgId i1) (e.Electron_pdgId i2) < 0 then
      some (if e.Electron_pt i1 > e.Electron_pt i2 then i1 else i2,
        if (if e.Electron_pt i1 > e.Electron_pt i2 then i1 else i2) = i1 then i2 else i1)
      else none := by
  unfold selection
  rw [h]

theorem selection_isSome_of_tight {e : Event α} {i1 i2 : Nat}
    (h : tightElectrons e = [i1, i2]) :
    (selection e).isSome = decide (mulInt32 (e.Electron_pdgId i1) (e.Electron_pdgId i2) < 0) := by
  rw [selection_of_tight h]
  by_cases hp : mulInt32 (e.Electron_pdgId i1) (e.Electron_pdgId i2) < 0 <;> simp [hp]

theorem cutFlowStep_of_length_ne (L : LorentzOps α) (c : Counters) {e : Event α}
    (h : (tightElectrons e).length ≠ 2) : cutFlowStep L c e = c := by
  unfold cutFlowStep
  split
  · rename_i i1 i2 heq
    rw [heq] at h
    simp at h
  · rfl

/-- One event adds to each counter the indicator of what the loop body tests
up to that stage. -/
theorem cutFlowStep_eq (L : LorentzOps α) (c : Counters) (e : Event α) :
    cutFlowStep L c e =
      ⟨c.eventAfterstage1 + (reachesUpTo L 1 e).toNat,
       c.eventAfterstage2 + (reachesUpTo L 2 e).toNat,
       c.eventAfterstage3 + (reachesUpTo L 3 e).toNat,
       c.eventAfterstage4 + (reachesUpTo L 4 e).toNat,
       c.eventAfterstage5 + (reachesUpTo L 5 e).toNat,
       c.eventAfterstage6 + (reachesUpTo L 6 e).toNat⟩ := by
  by_cases hlen : (tightElectrons e).length = 2
  · obtain ⟨i1, i2, h⟩ := List.length_eq_two.mp hlen
    have hs2 := stage2_of_tight h
    have hsel := selection_of_tight h
    unfold cutFlowStep
    rw [h]
    simp only [reachesUpTo, stage3, stage4, stage5, stage6, hs2, hsel]
    generalize (if e.Electron_pt i1 > e.Electron_pt i2 then i1 else i2) = lead
    generalize (if lead = i1 then i2 else i1) = sublead
    by_cases h1 : mulInt32 (e.Electron_pdgId i1) (e.Electron_pdgId i2) < 0
    · simp only [h1, if_true, dileptonOf, Option.isSome_some]
      set el1 := L.SetPtEtaPhiM (e.Electron_pt lead) (e.Electron_eta lead)
        (e.Electron_phi lead) electronMass
      set el2 := L.SetPtEtaPhiM (e.Electron_pt sublead) (e.Electron_eta sublead)
        (e.Electron_phi sublead) electronMass
      set mll := L.M (L.add el1 el2)
      set ptll := L.Pt (L.add el1 el2)
      set dphill := |L.DeltaPhi el1 el2|
      by_cases h2 : e.Electron_pt lead > 25 ∧ e.Electron_pt sublead > 20 ∧
        |e.Electron_eta lead| < 5 / 2 ∧ |e.Electron_eta sublead| < 5 / 2
      · by_cases h3 : mll > 60 ∧ mll < 120
        · have h3b : 60 < mll ∧ mll < 120 := h3
          by_cases h4 : e.projected_MET < 25
          · by_cases h5 : ptll < 40
            · by_cases h6 : dphill > 5 / 2
              · have h6b : 5 / 2 < dphill := h6
                simp [h2, h3b, h4, h5, h6b]
              · have h6b : ¬ 5 / 2 < dphill := h6
                simp [h2, h3b, h4, h5, h6b]
            · simp [h2, h3b, h4, h5]
          · simp [h2, h3b, h4]
        · have h3b : ¬ (60 < mll ∧ mll < 120) := h3
          simp only [h2, h3, h3b, if_true, if_false]
          simp
      · simp [h2]
    · simp [h1]
  · rw [cutFlowStep_of_length_ne L c hlen]
    simp [reachesUpTo, selection_of_length_ne hlen]

theorem cutFlowLoop_eq (L : LorentzOps α) (c : Counters) (events : List (Event α)) :
    cutFlowLoop L c events =
      ⟨c.eventAfterstage1 + events.countP (reachesUpTo L 1),
       c.eventAfterstage2 + events.countP (reachesUpTo L 2),
       c.eventAfterstage3 + events.countP (reachesUpTo L 3),
       c.eventAfterstage4 + events.countP (reachesUpTo L 4),
       c.eventAfterstage5 + events.countP (reachesUpTo L 5),
       c.eventAfterstage6 + events.countP (reachesUpTo L 6)⟩ := by
  induction events generalizing c with
  | nil => simp [cutFlowLoop]
  | cons e es ih =>
    have hb : ∀ b : Bool, (if b = true then 1 else 0) = b.toNat := by
      intro b; cases b <;> rfl
    unfold cutFlowLoop at ih ⊢
    rw [List.foldl_cons, ih, cutFlowStep_eq]
    simp only [List.countP_cons, hb, Counters.mk.injEq]
    refine ⟨?_, ?_, ?_, ?_, ?_, ?_⟩ <;> omega

end CutFlowLemmas

/-! ## Claims on the cut flow -/

section LimitLemmas

variable {α : Type} [LinearOrderedField α]

theorem wrapInt32_of_fits {x : Int} (h1 : -2147483648 ≤ x) (h2 : x < 2147483648) :
    wrapInt32 x = x := by
  unfold wrapInt32
  omega

theorem selection_isSome_eq_stage1 {e : Event α} (h : WithinLimits e) :
    (selection e).isSome = stage1 e := by
  by_cases hlen : (tightElectrons e).length = 2
  · obtain ⟨i1, i2, ht⟩ := List.length_eq_two.mp hlen
    have h2 := tight_pair_lt_count ht
    have h1 : i1 < e.nElectron := lt_trans (tight_pair_lt ht) h2
    obtain ⟨hf1, hf2⟩ := h.2 i1 i2 h1 h2
    rw [selection_isSome_of_tight ht, stage1_of_tight ht, mulInt32, wrapInt32_of_fits hf1 hf2]
  · rw [selection_of_length_ne hlen, stage1_of_length_ne hlen]
    rfl

theorem reachesUpTo_eq_passesUpTo (L : LorentzOps α) (k : Nat) {e : Event α}
    (h : WithinLimits e) : reachesUpTo L k e = passesUpTo L k e := by
  unfold reachesUpTo passesUpTo
  rw [selection_isSome_eq_stage1 h]

theorem countP_reaches_eq (L : LorentzOps α) (k : Nat) (events : List (Event α))
    (h : ∀ e ∈ events, WithinLimits e) :
    events.countP (reachesUpTo L k) = events.countP (passesUpTo L k) := by
  apply List.countP_congr
  intro e he
  rw [reachesUpTo_eq_passesUpTo L k (h e he)]

end LimitLemmas

/-- C1, as stated, fails: a one-event table whose two flagged objects carry the
code 50000. The product of the codes is 2500000000, not negative, so no stage
predicate holds; the 32-bit product is -1794967296, and the loop counts the
event at stage 1. -/
theorem C1_wrapped_product_counts_same_sign :
    (flagged evBigCodes).card = 2 ∧
    evBigCodes.Electron_pdgId 0 * evBigCodes.Electron_pdgId 1 = 2500000000 ∧
    mulInt32 (evBigCodes.Electron_pdgId 0) (evBigCodes.Electron_pdgId 1) = -1794967296 ∧
    (∀ L : LorentzOps ℚ, [evBigCodes].countP (passesUpTo L 1) = 0) ∧
    (∀ L : LorentzOps ℚ, (Electron_Cut_Flow L [evBigCodes]).2.eventAfterstage1 = 1) := by
  have t : tightElectrons evBigCodes = [0, 1] := by decide
  have hs : stage1 evBigCodes = false := by decide
  have hm : mulInt32 (evBigCodes.Electron_pdgId 0) (evBigCodes.Electron_pdgId 1) =
      -1794967296 := by decide
  refine ⟨by decide, by decide, hm, ?_, ?_⟩
  · intro L
    simp [List.countP_cons, passesUpTo, hs]
  · intro L
    have hsel : (selection evBigCodes).isSome = true := by
      rw [selection_isSome_of_tight t, hm]
      decide
    simp [Electron_Cut_Flow, cutFlowLoop_eq, Counters.zero, List.countP_cons, reachesUpTo, hsel]

/-- C1, amended. For every table of fewer than 2^31 events that are within the
limits of their C types (at most 10 objects, products of particle codes inside
the 32-bit range), the six counters printed by `Electron_Cut_Flow` are the
numbers of events satisfying stage predicates 1..k (k = 1..6) and fit in an
`int`; one event with at most 10 objects moves each counter (below 2^31 - 1)
by at most one; an event with at most 10 objects whose number of flagged
objects is not two changes no counter; and the three-event table with two
opposite-sign events and one same-sign event is within the limits and has
stage-1 count 2. -/
theorem C1_counters_count_stage_conjunctions_within_limits :
    (∀ (α : Type) [LinearOrderedField α] (L : LorentzOps α) (events : List (Event α)),
      (∀ e ∈ events, WithinLimits e) → events.length < 2147483648 →
      (Electron_Cut_Flow L events).2.eventAfterstage1 = events.countP (passesUpTo L 1) ∧
      (Electron_Cut_Flow L events).2.eventAfterstage2 = events.countP (passesUpTo L 2) ∧
      (Electron_Cut_Flow L events).2.eventAfterstage3 = events.countP (passesUpTo L 3) ∧
      (Electron_Cut_Flow L events).2.eventAfterstage4 = events.countP (passesUpTo L 4) ∧
      (Electron_Cut_Flow L events).2.eventAfterstage5 = events.countP (passesUpTo L 5) ∧
      (Electron_Cut_Flow L events).2.eventAfterstage6 = events.countP (passesUpTo L 6) ∧
      (Electron_Cut_Flow L events).2.eventAfterstage1 < 2147483648 ∧
      (Electron_Cut_Flow L events).2.eventAfterstage2 < 2147483648 ∧
      (Electron_Cut_Flow L events).2.eventAfterstage3 < 2147483648 ∧
      (Electron_Cut_Flow L events).2.eventAfterstage4 < 2147483648 ∧
      (Electron_Cut_Flow L events).2.eventAfterstage5 < 2147483648 ∧
      (Electron_Cut_Flow L events).2.eventAfterstage6 < 2147483648) ∧
    (∀ (α : Type) [LinearOrderedField α] (L : LorentzOps α) (c : Counters) (e : Event α),
      e.nElectron ≤ 10 → c.FitsInt →
      (c.eventAfterstage1 ≤ (cutFlowStep L c e).eventAfterstage1 ∧
        (cutFlowStep L c e).eventAfterstage1 ≤ c.eventAfterstage1 + 1) ∧
      (c.eventAfterstage2 ≤ (cutFlowStep L c e).eventAfterstage2 ∧
        (cutFlowStep L c e).eventAfterstage2 ≤ c.eventAfterstage2 + 1) ∧
      (c.eventAfterstage3 ≤ (cutFlowStep L c e).eventAfterstage3 ∧
        (cutFlowStep L c e).eventAfterstage3 ≤ c.eventAfterstage3 + 1) ∧
      (c.eventAfterstage4 ≤ (cutFlowStep L c e).eventAfterstage4 ∧
        (cutFlowStep L c e).eventAfterstage4 ≤ c.eventAfterstage4 + 1) ∧
      (c.eventAfterstage5 ≤ (cutFlowStep L c e).eventAfterstage5 ∧
        (cutFlowStep L c e).eventAfterstage5 ≤ c.eventAfterstage5 + 1) ∧
      (c.eventAfterstage6 ≤ (cutFlowStep L c e).eventAfterstage6 ∧
        (cutFlowStep L c e).eventAfterstage6 ≤ c.eventAfterstage6 + 1)) ∧
    (∀ (α : Type) [LinearOrderedField α] (L : LorentzOps α) (c : Counters) (e : Event α),
      e.nElectron ≤ 10 → (flagged e).card ≠ 2 → cutFlowStep L c e = c) ∧
    (∀ L : LorentzOps ℚ, (∀ e ∈ table3, WithinLimits e) ∧
      (Electron_Cut_Flow L table3).2.eventAfterstage1 = 2) := by
  have hlim : ∀ e ∈ table3, WithinLimits e := by
    intro e he
    simp only [table3, List.mem_cons, List.mem_singleton, List.not_mem_nil, or_false] at he
    rcases he with rfl | rfl | rfl
    · refine ⟨by decide, ?_⟩
      intro i j hi hj
      have hi2 : i < 2 := hi
      have hj2 : j < 2 := hj
      interval_cases i <;> interval_cases j <;> decide
    · refine ⟨by decide, ?_⟩
      intro i j hi hj
      have hi2 : i < 2 := hi
      have hj2 : j < 2 := hj
      interval_cases i <;> interval_cases j <;> decide
    · refine ⟨by decide, ?_⟩
      intro i j hi hj
      have hi2 : i < 3 := hi
      have hj2 : j < 3 := hj
      interval_cases i <;> interval_cases j <;> decide
  have hcount : ∀ (α : Type) [LinearOrderedField α] (L : LorentzOps α)
      (events : List (Event α)), (∀ e ∈ events, WithinLimits e) →
      (Electron_Cut_Flow L events).2 =
        ⟨events.countP (passesUpTo L 1), events.countP (passesUpTo L 2),
         events.countP (passesUpTo L 3), events.countP (passesUpTo L 4),
         events.countP (passesUpTo L 5), events.countP (passesUpTo L 6)⟩ := by
    intro α _ L events h
    simp only [Electron_Cut_Flow, cutFlowLoop_eq, Counters.zero, Nat.zero_add,
      countP_reaches_eq L _ events h]
  refine ⟨?_, ?_, ?_, ?_⟩
  · intro α _ L events h hlen
    rw [hcount α L events h]
    have hb : ∀ k, events.countP (passesUpTo L k) < 2147483648 :=
      fun k => lt_of_le_of_lt (List.countP_le_length _) hlen
    exact ⟨rfl, rfl, rfl, rfl, rfl, rfl, hb 1, hb 2, hb 3, hb 4, hb 5, hb 6⟩
  · intro α _ L c e _ _
    rw [cutFlowStep_eq]
    have hb : ∀ b : Bool, b.toNat ≤ 1 := by intro b; cases b <;> simp
    have h1 := hb (reachesUpTo L 1 e)
    have h2 := hb (reachesUpTo L 2 e)
    have h3 := hb (reachesUpTo L 3 e)
    have h4 := hb (reachesUpTo L 4 e)
    have h5 := hb (reachesUpTo L 5 e)
    have h6 := hb (reachesUpTo L 6 e)
    refine ⟨⟨?_, ?_⟩, ⟨?_, ?_⟩, ⟨?_, ?_⟩, ⟨?_, ?_⟩, ⟨?_, ?_⟩, ⟨?_, ?_⟩⟩ <;> simp only <;> omega
  · intro α _ L c e _ h
    rw [flagged_card] at h
    exact cutFlowStep_of_length_ne L c h
  · intro L
    refine ⟨hlim, ?_⟩
    have s1 : stage1 evOpposite = true := by decide
    have s2 : stage1 evSameSign = false := by decide
    have s3 : stage1 evOpposite3 = true := by decide
    rw [hcount ℚ L table3 hlim]
    simp [table3, List.countP_cons, passesUpTo, s1, s2, s3]

/-- C5, as stated, fails: with tight indices 0 and 1 and identical pt the cut
flow and `processTree` both take index 1 as leading and index 0 as subleading. -/
theorem C5_tie_takes_second_index :
    tightElectrons evTie = [0, 1] ∧
    evTie.Electron_pt 0 = evTie.Electron_pt 1 ∧
    selection evTie = some (1, 0) ∧
    processTreeRank evTie 0 1 = (1, 0) ∧
    ¬ (selection evTie = some (0, 1)) := by
  have t : tightElectrons evTie = [0, 1] := by decide
  have hm : mulInt32 (evTie.Electron_pdgId 0) (evTie.Electron_pdgId 1) < 0 := by decide
  refine ⟨t, by simp [evTie, mkEvent], ?_, ?_, ?_⟩
  · rw [selection_of_tight t, if_pos hm]; simp [evTie, mkEvent]
  · simp [processTreeRank, evTie, mkEvent]
  · rw [selection_of_tight t, if_pos hm]; simp [evTie, mkEvent]

/-- C5, amended. When the two tight indices `i1 < i2` carry identical pt, the
ranking of `processTree` and the selection of the cut flow (which also needs
opposite-sign codes, as the 32-bit product tests them) take the second index
`i2` as leading and `i1` as subleading. -/
theorem C5_equal_pt_leading_is_second {α : Type} [LinearOrderedField α] (e : Event α)
    (i1 i2 : Nat) (h : tightElectrons e = [i1, i2])
    (hpt : e.Electron_pt i1 = e.Electron_pt i2) :
    i1 < i2 ∧ processTreeRank e i1 i2 = (i2, i1) ∧
    (mulInt32 (e.Electron_pdgId i1) (e.Electron_pdgId i2) < 0 →
      selection e = some (i2, i1)) := by
  have hne : i2 ≠ i1 := fun h' => tight_pair_ne h h'.symm
  refine ⟨tight_pair_lt h, ?_, ?_⟩
  · simp [processTreeRank, hpt, hne]
  · intro hp
    rw [selection_of_tight h]
    simp [hp, hpt, hne]

/-- C5 amended, at the tie event: indices 0 and 1, lead 1, sublead 0. -/
theorem C5_equal_pt_leading_is_second_witness :
    0 < 1 ∧ processTreeRank evTie 0 1 = (1, 0) ∧
    (mulInt32 (evTie.Electron_pdgId 0) (evTie.Electron_pdgId 1) < 0 →
      selection evTie = some (1, 0)) :=
  C5_equal_pt_leading_is_second evTie 0 1 (by decide) (by simp [evTie, mkEvent])

/-- C10. Whenever the cut flow forms a (lead, sublead) pair, exactly two
objects pass identification, the pair consists of exactly those two indices,
its members differ and the leading pt is at least the subleading pt; the pair
is formed exactly when the event is counted at stage 1; and an event whose
passing subset does not have size two forms no pair and changes no counter. -/
theorem C10_selected_pair_invariant :
    (∀ (α : Type) [LinearOrderedField α] (e : Event α) (lead sublead : Nat),
      selection e = some (lead, sublead) →
        (flagged e).card = 2 ∧ flagged e = {lead, sublead} ∧ lead ≠ sublead ∧
        e.Electron_pt lead ≥ e.Electron_pt sublead) ∧
    (∀ (α : Type) [LinearOrderedField α] (L : LorentzOps α) (c : Counters) (e : Event α),
      (cutFlowStep L c e).eventAfterstage1 = c.eventAfterstage1 + 1 ↔
        (selection e).isSome = true) ∧
    (∀ (α : Type) [LinearOrderedField α] (L : LorentzOps α) (c : Counters) (e : Event α),
      (flagged e).card ≠ 2 → selection e = none ∧ cutFlowStep L c e = c) ∧
    selection evOpposite = some (0, 1) := by
  refine ⟨?_, ?_, ?_, ?_⟩
  · intro α _ e lead sublead hsel
    by_cases hlen : (tightElectrons e).length = 2
    · obtain ⟨i1, i2, h⟩ := List.length_eq_two.mp hlen
      have hne := tight_pair_ne h
      have hne2 : i2 ≠ i1 := fun h' => hne h'.symm
      rw [selection_of_tight h] at hsel
      rw [flagged_card, flagged_of_tight h]
      refine ⟨hlen, ?_⟩
      by_cases hp : mulInt32 (e.Electron_pdgId i1) (e.Electron_pdgId i2) < 0
      · rw [if_pos hp] at hsel
        by_cases hgt : e.Electron_pt i1 > e.Electron_pt i2
        · simp only [hgt, if_true, Option.some.injEq, Prod.mk.injEq] at hsel
          obtain ⟨rfl, rfl⟩ := hsel
          exact ⟨rfl, hne, le_of_lt hgt⟩
        · simp only [hgt, if_false, hne2, Option.some.injEq, Prod.mk.injEq] at hsel
          obtain ⟨rfl, rfl⟩ := hsel
          exact ⟨Finset.pair_comm _ _, hne2, not_lt.mp hgt⟩
      · rw [if_neg hp] at hsel
        exact absurd hsel (by simp)
    · rw [selection_of_length_ne hlen] at hsel
      exact absurd hsel (by simp)
  · intro α _ L c e
    rw [cutFlowStep_eq]
    simp only [reachesUpTo]
    cases (selection e).isSome <;> simp
  · intro α _ L c e h
    rw [flagged_card] at h
    exact ⟨selection_of_length_ne h, cutFlowStep_of_length_ne L c h⟩
  · have t : tightElectrons evOpposite = [0, 1] := by decide
    have hm : mulInt32 (evOpposite.Electron_pdgId 0) (evOpposite.Electron_pdgId 1) < 0 := by
      decide
    rw [selection_of_tight t, if_pos hm]
    norm_num [evOpposite, mkEvent]

/-! ## `deltaPhi` -/

section DeltaPhiLemmas

variable {α : Type} [LinearOrderedField α]

theorem deltaPhiLoop1_of_le (pi : α) (fuel : Nat) {d : α} (h : d ≤ pi) :
    deltaPhiLoop1 pi fuel d = some d := by
  cases fuel <;> simp [deltaPhiLoop1, not_lt.mpr h]

theorem deltaPhiLoop2_of_gt (pi : α) (fuel : Nat) {d : α} (h : -pi < d) :
    deltaPhiLoop2 pi fuel d = some d := by
  cases fuel <;> simp [deltaPhiLoop2, not_le.mpr h]

theorem deltaPhiLoop1_mono (pi : α) {fuel : Nat} {d r : α}
    (h : deltaPhiLoop1 pi fuel d = some r) (fuel2 : Nat) (hf : fuel ≤ fuel2) :
    deltaPhiLoop1 pi fuel2 d = some r := by
  induction fuel generalizing d fuel2 with
  | zero =>
    by_cases hd : d > pi
    · simp [deltaPhiLoop1, hd] at h
    · simp only [deltaPhiLoop1, hd, if_false] at h
      rw [deltaPhiLoop1_of_le pi fuel2 (not_lt.mp hd)]
      exact h
  | succ n ih =>
    by_cases hd : d > pi
    · obtain ⟨m, rfl⟩ : ∃ m, fuel2 = m + 1 := ⟨fuel2 - 1, by omega⟩
      simp only [deltaPhiLoop1, hd, if_true] at h ⊢
      exact ih h m (by omega)
    · simp only [deltaPhiLoop1, hd, if_false] at h
      rw [deltaPhiLoop1_of_le pi fuel2 (not_lt.mp hd)]
      exact h

theorem deltaPhiLoop2_mono (pi : α) {fuel : Nat} {d r : α}
    (h : deltaPhiLoop2 pi fuel d = some r) (fuel2 : Nat) (hf : fuel ≤ fuel2) :
    deltaPhiLoop2 pi fuel2 d = some r := by
  induction fuel generalizing d fuel2 with
  | zero =>
    by_cases hd : d ≤ -pi
    · simp [deltaPhiLoop2, hd] at h
    · simp only [deltaPhiLoop2, hd, if_false] at h
      rw [deltaPhiLoop2_of_gt pi fuel2 (not_le.mp hd)]
      exact h
  | succ n ih =>
    by_cases hd : d ≤ -pi
    · obtain ⟨m, rfl⟩ : ∃ m, fuel2 = m + 1 := ⟨fuel2 - 1, by omega⟩
      simp only [deltaPhiLoop2, hd, if_true] at h ⊢
      exact ih h m (by omega)
    · simp only [deltaPhiLoop2, hd, if_false] at h
      rw [deltaPhiLoop2_of_gt pi fuel2 (not_le.mp hd)]
      exact h

theorem deltaPhi_mono (pi : α) {fuel : Nat} {phi1 phi2 r : α}
    (h : deltaPhi pi fuel phi1 phi2 = some r) (fuel2 : Nat) (hf : fuel ≤ fuel2) :
    deltaPhi pi fuel2 phi1 phi2 = some r := by
  unfold deltaPhi at h ⊢
  obtain ⟨r1, h1, h2⟩ := Option.bind_eq_some.mp h
  rw [deltaPhiLoop1_mono pi h1 fuel2 hf]
  exact deltaPhiLoop2_mono pi h2 fuel2 hf

/-- The first loop, run from `d ≤ pi + 2 pi n`, stops within `n` iterations. -/
theorem deltaPhiLoop1_spec {pi : α} (n : Nat) (d : α)
    (hd : d ≤ pi + 2 * pi * n) :
    ∃ k : Nat, (∀ fuel, n ≤ fuel → deltaPhiLoop1 pi fuel d = some (d - 2 * pi * k)) ∧
      d - 2 * pi * k ≤ pi ∧ (pi < d → -pi < d - 2 * pi * k) ∧ (d ≤ pi → k = 0) := by
  induction n generalizing d with
  | zero =>
    have hle : d ≤ pi := by simpa using hd
    exact ⟨0, fun fuel _ => by simpa using deltaPhiLoop1_of_le pi fuel hle, by simpa using hle,
      fun h => absurd h (not_lt.mpr hle), fun _ => rfl⟩
  | succ n ih =>
    by_cases hgt : pi < d
    · have hd2 : d - 2 * pi ≤ pi + 2 * pi * n := by
        push_cast at hd
        linarith
      obtain ⟨k, hrun, hle, hlow, hzero⟩ := ih (d - 2 * pi) hd2
      refine ⟨k + 1, ?_, ?_, ?_, ?_⟩
      · intro fuel hf
        obtain ⟨m, rfl⟩ : ∃ m, fuel = m + 1 := ⟨fuel - 1, by omega⟩
        have hgt2 : d > pi := hgt
        simp only [deltaPhiLoop1, hgt2, if_true]
        rw [hrun m (by omega)]
        push_cast
        congr 1
        ring
      · push_cast
        linarith
      · intro _
        by_cases h2 : pi < d - 2 * pi
        · have := hlow h2
          push_cast
          linarith
        · have hk := hzero (not_lt.mp h2)
          subst hk
          push_cast
          linarith
      · intro h
        exact absurd hgt (not_lt.mpr h)
    · have hle : d ≤ pi := not_lt.mp hgt
      exact ⟨0, fun fuel _ => by simpa using deltaPhiLoop1_of_le pi fuel hle,
        by simpa using hle, fun h => absurd h hgt, fun _ => rfl⟩

/-- The second loop, run from `-pi - 2 pi n < d`, stops within `n` iterations. -/
theorem deltaPhiLoop2_spec {pi : α} (n : Nat) (d : α)
    (hd : -pi - 2 * pi * n < d) :
    ∃ k : Nat, (∀ fuel, n ≤ fuel → deltaPhiLoop2 pi fuel d = some (d + 2 * pi * k)) ∧
      -pi < d + 2 * pi * k ∧ (d ≤ -pi → d + 2 * pi * k ≤ pi) ∧ (-pi < d → k = 0) := by
  induction n generalizing d with
  | zero =>
    have hlt : -pi < d := by simpa using hd
    exact ⟨0, fun fuel _ => by simpa using deltaPhiLoop2_of_gt pi fuel hlt, by simpa using hlt,
      fun h => absurd hlt (not_lt.mpr h), fun _ => rfl⟩
  | succ n ih =>
    by_cases hle : d ≤ -pi
    · have hd2 : -pi - 2 * pi * n < d + 2 * pi := by
        push_cast at hd
        linarith
      obtain ⟨k, hrun, hlow, hup, hzero⟩ := ih (d + 2 * pi) hd2
      refine ⟨k + 1, ?_, ?_, ?_, ?_⟩
      · intro fuel hf
        obtain ⟨m, rfl⟩ : ∃ m, fuel = m + 1 := ⟨fuel - 1, by omega⟩
        simp only [deltaPhiLoop2, hle, if_true]
        rw [hrun m (by omega)]
        push_cast
        congr 1
        ring
      · push_cast
        linarith
      · intro _
        by_cases h2 : d + 2 * pi ≤ -pi
        · have := hup h2
          push_cast
          linarith
        · have hk := hzero (not_le.mp h2)
          subst hk
          push_cast
          linarith
      · intro h
        exact absurd h (not_lt.mpr hle)
    · have hlt : -pi < d := not_le.mp hle
      exact ⟨0, fun fuel _ => by simpa using deltaPhiLoop2_of_gt pi fuel hlt,
        by simpa using hlt, fun h => absurd h hle, fun _ => rfl⟩

/-- Two values in `(-pi, pi]` that differ by an integer multiple of `2 pi` are
equal. -/
theorem wrap_unique {pi : α} (hpi : 0 < pi) {r s : α} (hr1 : -pi < r) (hr2 : r ≤ pi)
    (hs1 : -pi < s) (hs2 : s ≤ pi) (m : Int) (h : s = r + 2 * pi * m) : s = r := by
  have h1 : (m : α) < 1 := by
    by_contra hc
    have : (1 : α) ≤ m := not_lt.mp hc
    nlinarith
  have h2 : (-1 : α) < m := by
    by_contra hc
    have : (m : α) ≤ -1 := not_lt.mp hc
    nlinarith
  have h3 : m < 1 := by exact_mod_cast h1
  have h4 : -1 < m := by exact_mod_cast h2
  have hm : m = 0 := by omega
  subst hm
  simpa using h

/-- Total correctness of `deltaPhi` for a positive `pi` in an Archimedean
field: from some iteration bound on, the call returns the representative of
`phi1 - phi2` in `(-pi, pi]`. -/
theorem deltaPhi_spec [Archimedean α] {pi : α} (hpi : 0 < pi) (phi1 phi2 : α) :
    ∃ (r : α) (N : Nat) (k : Int), (∀ fuel, N ≤ fuel → deltaPhi pi fuel phi1 phi2 = some r) ∧
      -pi < r ∧ r ≤ pi ∧ r = phi1 - phi2 + 2 * pi * k := by
  have h2pi : 0 < 2 * pi := by linarith
  obtain ⟨n1, hn1⟩ := exists_nat_ge ((phi1 - phi2 - pi) / (2 * pi))
  have hd1 : phi1 - phi2 ≤ pi + 2 * pi * n1 := by
    rw [div_le_iff₀ h2pi] at hn1
    linarith
  obtain ⟨k1, hrun1, hle1, hlow1, hzero1⟩ := deltaPhiLoop1_spec n1 (phi1 - phi2) hd1
  obtain ⟨n2, hn2⟩ := exists_nat_gt ((-pi - (phi1 - phi2 - 2 * pi * k1)) / (2 * pi))
  have hd2 : -pi - 2 * pi * n2 < phi1 - phi2 - 2 * pi * k1 := by
    rw [div_lt_iff₀ h2pi] at hn2
    linarith
  obtain ⟨k2, hrun2, hlow2, hup2, hzero2⟩ :=
    deltaPhiLoop2_spec n2 (phi1 - phi2 - 2 * pi * k1) hd2
  refine ⟨phi1 - phi2 - 2 * pi * k1 + 2 * pi * k2, max n1 n2, (k2 : Int) - (k1 : Int),
    ?_, hlow2, ?_, ?_⟩
  · intro fuel hf
    unfold deltaPhi
    rw [hrun1 fuel (le_trans (le_max_left _ _) hf)]
    exact hrun2 fuel (le_trans (le_max_right _ _) hf)
  · by_cases h : phi1 - phi2 - 2 * pi * k1 ≤ -pi
    · exact hup2 h
    · have hk := hzero2 (not_le.mp h)
      subst hk
      simpa using hle1
  · push_cast
    ring

/-- Whatever the iteration bound, a returned value is the representative of
`phi1 - phi2` in `(-pi, pi]`. -/
theorem deltaPhi_sound [Archimedean α] {pi : α} (hpi : 0 < pi) {fuel : Nat}
    {phi1 phi2 r : α} (h : deltaPhi pi fuel phi1 phi2 = some r) :
    -pi < r ∧ r ≤ pi ∧ ∃ k : Int, r = phi1 - phi2 + 2 * pi * k := by
  obtain ⟨r0, N, k, hrun, h1, h2, h3⟩ := deltaPhi_spec hpi phi1 phi2
  have ha := deltaPhi_mono pi h (max fuel N) (le_max_left _ _)
  have hb := hrun (max fuel N) (le_max_right _ _)
  rw [ha] at hb
  have hr : r = r0 := by simpa using hb
  subst hr
  exact ⟨h1, h2, k, h3⟩

/-- On a difference already in `(-pi, pi]` neither loop body runs. -/
theorem deltaPhi_of_mem (pi : α) (fuel : Nat) (phi1 phi2 : α) (h1 : -pi < phi1 - phi2)
    (h2 : phi1 - phi2 ≤ pi) : deltaPhi pi fuel phi1 phi2 = some (phi1 - phi2) := by
  unfold deltaPhi
  rw [deltaPhiLoop1_of_le pi fuel h2]
  exact deltaPhiLoop2_of_gt pi fuel h1

end DeltaPhiLemmas

/-! ## The ranking loop of `projected_MET()` -/

theorem truncatedCount_eq_min {α : Type} (e : Event α) :
    truncatedCount e = min e.nElectron MAX_ELECTRONS := by
  unfold truncatedCount
  split_ifs with h
  · exact (min_eq_right (le_of_lt h)).symm
  · exact (min_eq_left (not_lt.mp h)).symm

theorem truncatedCount_cases {α : Type} (e : Event α) :
    (truncatedCount e = 0 ↔ e.nElectron = 0) ∧ (truncatedCount e = 1 ↔ e.nElectron = 1) ∧
    (2 ≤ truncatedCount e ↔ 2 ≤ e.nElectron) := by
  have hM : MAX_ELECTRONS = 10 := rfl
  unfold truncatedCount
  rw [hM]
  split_ifs with h
  · refine ⟨⟨fun h0 => ?_, fun h0 => ?_⟩, ⟨fun h0 => ?_, fun h0 => ?_⟩,
      ⟨fun _ => ?_, fun _ => ?_⟩⟩ <;> first | omega | contradiction
  · exact ⟨Iff.rfl, Iff.rfl, Iff.rfl⟩

section RankLemmas

variable {α : Type} [LinearOrderedField α]

theorem rankStep_inv (e : Event α) (m : Nat) (s : Int × Int) (h : RankInv e m s) :
    RankInv e (m + 1) (rankStep e s m) := by
  obtain ⟨h0, h1, hone, h2⟩ := h
  rcases Nat.eq_zero_or_pos m with rfl | hm
  · have hs := h0 rfl
    subst hs
    have hstep : rankStep e (-1, -1) 0 = (0, -1) := by simp [rankStep]
    rw [hstep]
    refine ⟨fun h => absurd h (by omega), fun _ => ⟨0, by omega, rfl, ?_, ?_⟩,
      fun _ => rfl, fun h => absurd h (by omega)⟩
    · intro k hk
      have : k = 0 := by omega
      subst this
      exact le_rfl
    · intro k hk
      omega
  · obtain ⟨l, hl, hs1, hmax, hfirst⟩ := h1 hm
    have hne1 : ¬ (s.1 = -1) := by omega
    have htoNat : s.1.toNat = l := by rw [hs1]; simp
    by_cases hgt : e.Electron_pt m > e.Electron_pt l
    · have hstep : rankStep e s m = ((m : Int), s.1) := by
        simp [rankStep, htoNat, hgt]
      rw [hstep]
      refine ⟨fun h => absurd h (by omega), fun _ => ⟨m, by omega, rfl, ?_, ?_⟩,
        fun h => absurd h (by omega), fun _ => ⟨l, by omega, hs1, ?_, ?_⟩⟩
      · intro k hk
        rcases Nat.lt_succ_iff_lt_or_eq.mp hk with hk2 | rfl
        · exact le_trans (hmax k hk2) (le_of_lt hgt)
        · exact le_rfl
      · intro k hk
        exact lt_of_le_of_lt (hmax k hk) hgt
      · simp only
        omega
      · intro k hk hne
        simp only at hne
        have hk2 : k < m := by omega
        exact hmax k hk2
    · have hle : e.Electron_pt m ≤ e.Electron_pt l := not_lt.mp hgt
      have hlead : ∃ l2 : Nat, l2 < m + 1 ∧ s.1 = (l2 : Int) ∧
          (∀ k, k < m + 1 → e.Electron_pt k ≤ e.Electron_pt l2) ∧
          (∀ k, k < l2 → e.Electron_pt k < e.Electron_pt l2) := by
        refine ⟨l, by omega, hs1, ?_, hfirst⟩
        intro k hk
        rcases Nat.lt_succ_iff_lt_or_eq.mp hk with hk2 | rfl
        · exact hmax k hk2
        · exact hle
      by_cases hsub : s.2 = -1 ∨ e.Electron_pt m > e.Electron_pt s.2.toNat
      · have hstep : rankStep e s m = (s.1, (m : Int)) := by
          simp only [rankStep, hne1, htoNat, hgt, false_or, if_false]
          rw [if_pos hsub]
        rw [hstep]
        refine ⟨fun h => absurd h (by omega), fun _ => hlead, fun h => absurd h (by omega),
          fun _ => ⟨m, by omega, rfl, ?_, ?_⟩⟩
        · simp only
          omega
        · intro k hk hne
          simp only at hne
          rcases Nat.lt_succ_iff_lt_or_eq.mp hk with hk2 | rfl
          · rcases Nat.lt_or_ge m 2 with hm2 | hm2
            · omega
            · obtain ⟨t, ht, hs2, htne, htmax⟩ := h2 hm2
              have hne2 : ¬ (s.2 = -1) := by omega
              have htoNat2 : s.2.toNat = t := by rw [hs2]; simp
              rcases hsub with hsub | hsub
              · exact absurd hsub hne2
              · rw [htoNat2] at hsub
                exact le_trans (htmax k hk2 hne) (le_of_lt hsub)
          · exact le_rfl
      · have hstep : rankStep e s m = s := by
          simp only [rankStep, hne1, htoNat, hgt, false_or, if_false]
          rw [if_neg hsub]
        rw [hstep]
        have hne2 : ¬ (s.2 = -1) := fun h => hsub (Or.inl h)
        have hm2 : 2 ≤ m := by
          by_contra hc
          exact hne2 (hone (by omega))
        obtain ⟨t, ht, hs2, htne, htmax⟩ := h2 hm2
        have htoNat2 : s.2.toNat = t := by rw [hs2]; simp
        refine ⟨fun h => absurd h (by omega), fun _ => hlead, fun h => absurd h (by omega),
          fun _ => ⟨t, by omega, hs2, htne, ?_⟩⟩
        intro k hk hne
        rcases Nat.lt_succ_iff_lt_or_eq.mp hk with hk2 | rfl
        · exact htmax k hk2 hne
        · have := not_lt.mp (fun h => hsub (Or.inr h))
          rw [htoNat2] at this
          exact this

theorem rankFold_inv (e : Event α) (m : Nat) :
    RankInv e m ((List.range m).foldl (rankStep e) (-1, -1)) := by
  induction m with
  | zero =>
    refine ⟨fun _ => rfl, fun h => absurd h (by omega), fun h => absurd h (by omega),
      fun h => absurd h (by omega)⟩
  | succ m ih =>
    rw [List.range_succ, List.foldl_append]
    exact rankStep_inv e m _ ih

theorem rankLoop_inv (e : Event α) : RankInv e (truncatedCount e) (rankLoop e) :=
  rankFold_inv e (truncatedCount e)

theorem rankLoop_of_zero (e : Event α) (h : e.nElectron = 0) : rankLoop e = (-1, -1) :=
  (rankLoop_inv e).1 ((truncatedCount_cases e).1.mpr h)

theorem rankLoop_of_one (e : Event α) (h : e.nElectron = 1) :
    (rankLoop e).1 = 0 ∧ (rankLoop e).2 = -1 := by
  have hc := (truncatedCount_cases e).2.1.mpr h
  obtain ⟨-, h1, hone, -⟩ := rankLoop_inv e
  obtain ⟨l, hl, hs1, -, -⟩ := h1 (by omega)
  refine ⟨?_, hone hc⟩
  rw [hs1]
  have : l = 0 := by omega
  simp [this]

theorem rankLoop_of_two_le (e : Event α) (h : 2 ≤ e.nElectron) :
    (rankLoop e).1 ≠ -1 ∧ (rankLoop e).2 ≠ -1 := by
  have hc := (truncatedCount_cases e).2.2.mpr h
  obtain ⟨-, h1, -, h2⟩ := rankLoop_inv e
  obtain ⟨l, -, hs1, -, -⟩ := h1 (by omega)
  obtain ⟨t, -, hs2, -, -⟩ := h2 hc
  constructor <;> omega

end RankLemmas

/-! ## The entry loop body of `projected_MET()` -/

section EntryLemmas

variable {α : Type} [LinearOrderedField α]

theorem entry_mono (pi : α) (sin : α → α) {fuel : Nat} {e : Event α} {out : Derived α}
    (h : projected_MET_entry pi sin fuel e = some out) (fuel2 : Nat) (hf : fuel ≤ fuel2) :
    projected_MET_entry pi sin fuel2 e = some out := by
  unfold projected_MET_entry at h ⊢
  simp only at h ⊢
  obtain ⟨d1, h1, h⟩ := Option.bind_eq_some.mp h
  obtain ⟨d2, h2, h⟩ := Option.bind_eq_some.mp h
  have g1 : (if (rankLoop e).1 ≠ -1 then
      deltaPhi pi fuel2 e.PuppiMET_phi (e.Electron_phi (rankLoop e).1.toNat)
      else some 0) = some d1 := by
    by_cases hc : (rankLoop e).1 ≠ -1
    · rw [if_pos hc] at h1 ⊢
      exact deltaPhi_mono pi h1 fuel2 hf
    · rw [if_neg hc] at h1 ⊢
      exact h1
  have g2 : (if (rankLoop e).2 ≠ -1 then
      deltaPhi pi fuel2 e.PuppiMET_phi (e.Electron_phi (rankLoop e).2.toNat)
      else some 0) = some d2 := by
    by_cases hc : (rankLoop e).2 ≠ -1
    · rw [if_pos hc] at h2 ⊢
      exact deltaPhi_mono pi h2 fuel2 hf
    · rw [if_neg hc] at h2 ⊢
      exact h2
  rw [g1, Option.some_bind, g2, Option.some_bind]
  exact h

/-- The entry body returns from some iteration bound on; its result is
`fillDerived` applied to the ranking and to the two angle differences (0 for an
index that is not set). -/
theorem entry_spec [Archimedean α] {pi : α} (hpi : 0 < pi) (sin : α → α) (e : Event α) :
    ∃ (d1 d2 : α) (N : Nat),
      (∀ fuel, N ≤ fuel →
        projected_MET_entry pi sin fuel e = some (fillDerived pi sin e (rankLoop e) d1 d2)) ∧
      (∀ (fuel : Nat) (out : Derived α), projected_MET_entry pi sin fuel e = some out →
        out = fillDerived pi sin e (rankLoop e) d1 d2) ∧
      ((rankLoop e).1 ≠ -1 → ∀ fuel, N ≤ fuel →
        deltaPhi pi fuel e.PuppiMET_phi (e.Electron_phi (rankLoop e).1.toNat) = some d1) ∧
      ((rankLoop e).1 = -1 → d1 = 0) ∧
      ((rankLoop e).2 ≠ -1 → ∀ fuel, N ≤ fuel →
        deltaPhi pi fuel e.PuppiMET_phi (e.Electron_phi (rankLoop e).2.toNat) = some d2) ∧
      ((rankLoop e).2 = -1 → d2 = 0) := by
  have key : ∀ i : Int, ∃ (d : α) (N : Nat),
      (∀ fuel, N ≤ fuel →
        (if i ≠ -1 then deltaPhi pi fuel e.PuppiMET_phi (e.Electron_phi i.toNat)
          else some 0) = some d) ∧
      (i ≠ -1 → ∀ fuel, N ≤ fuel →
        deltaPhi pi fuel e.PuppiMET_phi (e.Electron_phi i.toNat) = some d) ∧
      (i = -1 → d = 0) := by
    intro i
    by_cases hc : i ≠ -1
    · obtain ⟨r, N, -, hrun, -, -, -⟩ :=
        deltaPhi_spec hpi e.PuppiMET_phi (e.Electron_phi i.toNat)
      refine ⟨r, N, ?_, fun _ => hrun, fun h => absurd h hc⟩
      intro fuel hf
      rw [if_pos hc]
      exact hrun fuel hf
    · refine ⟨0, 0, ?_, fun h => absurd h hc, fun _ => rfl⟩
      intro fuel _
      rw [if_neg hc]
  obtain ⟨d1, N1, hrun1, hd1, hz1⟩ := key (rankLoop e).1
  obtain ⟨d2, N2, hrun2, hd2, hz2⟩ := key (rankLoop e).2
  have hrun : ∀ fuel, max N1 N2 ≤ fuel →
      projected_MET_entry pi sin fuel e = some (fillDerived pi sin e (rankLoop e) d1 d2) := by
    intro fuel hf
    unfold projected_MET_entry
    simp only
    rw [hrun1 fuel (le_trans (le_max_left _ _) hf), Option.some_bind,
      hrun2 fuel (le_trans (le_max_right _ _) hf), Option.some_bind]
  refine ⟨d1, d2, max N1 N2, hrun, ?_, ?_, hz1, ?_, hz2⟩
  · intro fuel out h
    have ha := entry_mono pi sin h (max fuel (max N1 N2)) (le_max_left _ _)
    have hb := hrun (max fuel (max N1 N2)) (le_max_right _ _)
    rw [ha] at hb
    simpa using hb
  · intro hc fuel hf
    exact hd1 hc fuel (le_trans (le_max_left _ _) hf)
  · intro hc fuel hf
    exact hd2 hc fuel (le_trans (le_max_right _ _) hf)

theorem entry_eval (pi : α) (sin : α → α) (fuel : Nat) (e : Event α) (d1 d2 : α)
    {s : Int × Int} (hs : rankLoop e = s)
    (h1 : (if s.1 ≠ -1 then deltaPhi pi fuel e.PuppiMET_phi (e.Electron_phi s.1.toNat)
      else some 0) = some d1)
    (h2 : (if s.2 ≠ -1 then deltaPhi pi fuel e.PuppiMET_phi (e.Electron_phi s.2.toNat)
      else some 0) = some d2) :
    projected_MET_entry pi sin fuel e = some (fillDerived pi sin e s d1 d2) := by
  unfold projected_MET_entry
  simp only
  rw [hs, h1, Option.some_bind, h2, Option.some_bind]

theorem fillDerived_delta_phi_1 (pi : α) (sin : α → α) (e : Event α) (s : Int × Int)
    (d1 d2 : α) : (fillDerived pi sin e s d1 d2).delta_phi_1 = d1 := by
  unfold fillDerived
  split_ifs <;> rfl

theorem fillDerived_delta_phi_2 (pi : α) (sin : α → α) (e : Event α) (s : Int × Int)
    (d1 d2 : α) : (fillDerived pi sin e s d1 d2).delta_phi_2 = d2 := by
  unfold fillDerived
  split_ifs <;> rfl

end EntryLemmas

/-! ## Claims on the derived fields -/

/-- C3, evaluated at an event with a single object: with missing energy 50 at
azimuth 1 and the object at azimuth 0 the single-object branch (lines 150-153)
writes `delta_phi_min = 1`, below π/2, and `projected_MET = 50`, which is not
the `50 * sin 1` of the formula in the header of the macro (lines 12-14). -/
theorem C3_single_object_keeps_MET :
    projected_MET_entry Real.pi Real.sin 0 (evSingle ℝ) = some ⟨1, 0, 1, 50⟩ ∧
    |(1 : ℝ)| < Real.pi / 2 ∧ (50 : ℝ) ≠ 50 * Real.sin |(1 : ℝ)| := by
  have hpi := Real.pi_gt_three
  have hs : rankLoop (evSingle ℝ) = (0, -1) := by
    obtain ⟨h1, h2⟩ := rankLoop_of_one (evSingle ℝ) rfl
    exact Prod.ext h1 h2
  have hd : deltaPhi Real.pi 0 (1 : ℝ) 0 = some 1 := by
    have := deltaPhi_of_mem Real.pi 0 (1 : ℝ) 0 (by linarith) (by linarith)
    simpa using this
  refine ⟨?_, ?_, ?_⟩
  · rw [entry_eval Real.pi Real.sin 0 (evSingle ℝ) 1 0 hs
      (by simpa [evSingle, mkEvent] using hd) (by simp)]
    simp [fillDerived, evSingle, mkEvent]
  · rw [abs_one]
    linarith
  · rw [abs_one]
    have := Real.sin_lt (show (0 : ℝ) < 1 by norm_num)
    intro h
    linarith

/-- The written `projected_MET` by number of objects, in exact real arithmetic.
Every event has one written result (returned from some iteration bound on, and
by no bound differently). For an event with no object or with at least two
objects it is `MET_pt * sin |delta_phi_min|` when `|delta_phi_min| < π/2` and
`MET_pt` otherwise: the path of lines 142-149 applies the formula of the
header. For an event with exactly one object it is `MET_pt`. With two objects,
`MET_pt = 50` and `delta_phi_min = π/4` give `50 * sin (π/4)`, and
`delta_phi_min = 2` gives 50. -/
theorem projected_MET_by_object_count :
    (∀ e : Event ℝ, ∃ out : Derived ℝ,
      (∃ N : Nat, ∀ fuel, N ≤ fuel →
        projected_MET_entry Real.pi Real.sin fuel e = some out) ∧
      (∀ (fuel : Nat) (out2 : Derived ℝ),
        projected_MET_entry Real.pi Real.sin fuel e = some out2 → out2 = out) ∧
      (e.nElectron ≠ 1 → out.projected_MET =
        if |out.delta_phi_min| < Real.pi / 2
        then e.PuppiMET_pt * Real.sin |out.delta_phi_min| else e.PuppiMET_pt) ∧
      (e.nElectron = 1 → out.projected_MET = e.PuppiMET_pt)) ∧
    projected_MET_entry Real.pi Real.sin 0 (evPair (Real.pi / 4)) =
      some ⟨Real.pi / 4, Real.pi / 4, Real.pi / 4, 50 * Real.sin (Real.pi / 4)⟩ ∧
    projected_MET_entry Real.pi Real.sin 0 (evPair (2 : ℝ)) = some ⟨2, 2, 2, 50⟩ := by
  have hpi := Real.pi_pos
  have hpi3 := Real.pi_gt_three
  have hpi4 := Real.pi_le_four
  refine ⟨?_, ?_, ?_⟩
  · intro e
    obtain ⟨d1, d2, N, hrun, huniq, -, hz1, -, hz2⟩ := entry_spec hpi Real.sin e
    refine ⟨_, ⟨N, hrun⟩, huniq, ?_, ?_⟩
    · intro hne
      rcases Nat.lt_or_ge e.nElectron 2 with hlt | hge
      · have h0 : e.nElectron = 0 := by omega
        have hs := rankLoop_of_zero e h0
        simp [fillDerived, hs, hpi]
      · obtain ⟨h1, h2⟩ := rankLoop_of_two_le e hge
        simp [fillDerived, h1, h2]
    · intro h1
      obtain ⟨ha, hb⟩ := rankLoop_of_one e h1
      simp [fillDerived, ha, hb]
  · have hs : rankLoop (evPair (Real.pi / 4)) = (0, 1) := by
      norm_num [rankLoop, truncatedCount, MAX_ELECTRONS, evPair, mkEvent, List.range_succ,
        rankStep]
    have hd : deltaPhi Real.pi 0 (Real.pi / 4) 0 = some (Real.pi / 4) := by
      have := deltaPhi_of_mem Real.pi 0 (Real.pi / 4) 0
        (by linarith) (by linarith)
      simpa using this
    rw [entry_eval Real.pi Real.sin 0 _ (Real.pi / 4) (Real.pi / 4) hs
      (by simpa [evPair, mkEvent] using hd) (by simpa [evPair, mkEvent] using hd)]
    have habs : |Real.pi / 4| = Real.pi / 4 := abs_of_pos (by linarith)
    have hlt : Real.pi / 4 < Real.pi / 2 := by linarith
    simp [fillDerived, evPair, mkEvent, habs, hlt]
  · have hs : rankLoop (evPair (2 : ℝ)) = (0, 1) := by
      norm_num [rankLoop, truncatedCount, MAX_ELECTRONS, evPair, mkEvent, List.range_succ,
        rankStep]
    have hd : deltaPhi Real.pi 0 (2 : ℝ) 0 = some 2 := by
      have := deltaPhi_of_mem Real.pi 0 (2 : ℝ) 0
        (by linarith) (by linarith)
      simpa using this
    rw [entry_eval Real.pi Real.sin 0 _ 2 2 hs
      (by simpa [evPair, mkEvent] using hd) (by simpa [evPair, mkEvent] using hd)]
    have hnlt : ¬ ((2 : ℝ) < Real.pi / 2) := by linarith
    simp [fillDerived, evPair, mkEvent, hnlt]

/-- C6. In exact real arithmetic every event has one written result. With at
least two objects `delta_phi_min` is one of `delta_phi_1`, `delta_phi_2` and
its absolute value is the smaller of theirs; with exactly one object it is
`delta_phi_1`; with no object it is 0, and then `delta_phi_1`, `delta_phi_2`
and `projected_MET` are 0 as well. -/
theorem C6_delta_phi_min (e : Event ℝ) :
    ∃ out : Derived ℝ,
      (∃ N : Nat, ∀ fuel, N ≤ fuel →
        projected_MET_entry Real.pi Real.sin fuel e = some out) ∧
      (∀ (fuel : Nat) (out2 : Derived ℝ),
        projected_MET_entry Real.pi Real.sin fuel e = some out2 → out2 = out) ∧
      (2 ≤ e.nElectron →
        (out.delta_phi_min = out.delta_phi_1 ∨ out.delta_phi_min = out.delta_phi_2) ∧
        |out.delta_phi_min| = min |out.delta_phi_1| |out.delta_phi_2|) ∧
      (e.nElectron = 1 → out.delta_phi_min = out.delta_phi_1) ∧
      (e.nElectron = 0 → out.delta_phi_min = 0 ∧ out.delta_phi_1 = 0 ∧
        out.delta_phi_2 = 0 ∧ out.projected_MET = 0) := by
  obtain ⟨d1, d2, N, hrun, huniq, -, hz1, -, hz2⟩ := entry_spec Real.pi_pos Real.sin e
  refine ⟨_, ⟨N, hrun⟩, huniq, ?_, ?_, ?_⟩
  · intro hge
    obtain ⟨h1, h2⟩ := rankLoop_of_two_le e hge
    by_cases hlt : |d1| < |d2|
    · simp [fillDerived, h1, h2, hlt, min_eq_left (le_of_lt hlt)]
    · simp [fillDerived, h1, h2, hlt, min_eq_right (not_lt.mp hlt)]
  · intro h1
    obtain ⟨ha, hb⟩ := rankLoop_of_one e h1
    simp [fillDerived, ha, hb]
  · intro h0
    have hs := rankLoop_of_zero e h0
    have e1 := hz1 (by rw [hs])
    have e2 := hz2 (by rw [hs])
    simp [fillDerived, hs, e1, e2]

section RankAgreement

variable {α : Type} [LinearOrderedField α]

theorem selection_eq_cutFlowRank {e : Event α} {i1 i2 : Nat}
    (h : tightElectrons e = [i1, i2])
    (hp : mulInt32 (e.Electron_pdgId i1) (e.Electron_pdgId i2) < 0) :
    selection e = some (cutFlowRank e i1 i2) := by
  rw [selection_of_tight h, if_pos hp]
  rfl

/-- When object `a` has the strictly highest pt and object `b` the strictly
second highest among the ranked objects, the ranking loop ends with
`leadIdx = a` and `subleadIdx = b`. -/
theorem rankLoop_of_dominant (e : Event α) (a b : Nat) (ha : a < truncatedCount e)
    (hb : b < truncatedCount e) (hab : e.Electron_pt b < e.Electron_pt a)
    (hdom : ∀ k, k < truncatedCount e → k ≠ a → k ≠ b → e.Electron_pt k < e.Electron_pt b) :
    rankLoop e = ((a : Int), (b : Int)) := by
  have hne : a ≠ b := fun h => by rw [h] at hab; exact lt_irrefl _ hab
  obtain ⟨-, h1, -, h2⟩ := rankLoop_inv e
  obtain ⟨l, hl, hs1, hmax, -⟩ := h1 (by omega)
  obtain ⟨t, ht, hs2, htne, htmax⟩ := h2 (by omega)
  have hla : l = a := by
    by_contra hc
    have h3 := hmax a ha
    by_cases hlb : l = b
    · rw [hlb] at h3
      exact absurd hab (not_lt.mpr h3)
    · have := hdom l hl hc hlb
      exact absurd (lt_trans this hab) (not_lt.mpr h3)
  subst hla
  have htl : t ≠ l := by
    intro h
    apply htne
    rw [hs1, h]
  have htb : t = b := by
    by_contra hc
    have h3 := htmax b hb (by rw [hs1]; exact_mod_cast hne.symm)
    exact absurd (hdom t ht htl hc) (not_lt.mpr h3)
  subst htb
  exact Prod.ext hs1 hs2

end RankAgreement

/-- C7, as stated, fails: in the three-object event the cut flow selects
lead 1 and sublead 2, the ranking loop of `projected_MET()` ends with
`leadIdx = 0` and `subleadIdx = 1`, and the written `delta_phi_1` is -1 while
the angle difference to the cut flow's leading object is 0. -/
theorem C7_ranking_ignores_identification :
    selection (evThree ℝ) = some (1, 2) ∧
    rankLoop (evThree ℝ) = (0, 1) ∧
    (projected_MET_entry Real.pi Real.sin 0 (evThree ℝ)).map Derived.delta_phi_1 =
      some (-1) ∧
    deltaPhi Real.pi 0 (evThree ℝ).PuppiMET_phi ((evThree ℝ).Electron_phi 1) = some 0 ∧
    (-1 : ℝ) ≠ 0 := by
  have hpi3 := Real.pi_gt_three
  have t : tightElectrons (evThree ℝ) = [1, 2] := by decide
  have hs : rankLoop (evThree ℝ) = (0, 1) := by
    norm_num [rankLoop, truncatedCount, MAX_ELECTRONS, evThree, mkEvent, List.range_succ,
      rankStep]
  have hd1 : deltaPhi Real.pi 0 (0 : ℝ) 1 = some (-1) := by
    have := deltaPhi_of_mem Real.pi 0 (0 : ℝ) 1 (by linarith) (by linarith)
    simpa using this
  have hd2 : deltaPhi Real.pi 0 (0 : ℝ) 0 = some 0 := by
    have := deltaPhi_of_mem Real.pi 0 (0 : ℝ) 0 (by linarith) (by linarith)
    simpa using this
  have hm : mulInt32 ((evThree ℝ).Electron_pdgId 1) ((evThree ℝ).Electron_pdgId 2) < 0 := by
    decide
  refine ⟨?_, hs, ?_, ?_, by norm_num⟩
  · rw [selection_of_tight t, if_pos hm]
    norm_num [evThree, mkEvent]
  · rw [entry_eval Real.pi Real.sin 0 _ (-1) 0 hs
      (by simpa [evThree, mkEvent] using hd1) (by simpa [evThree, mkEvent] using hd2)]
    simp [fillDerived_delta_phi_1]
  · simpa [evThree, mkEvent] using hd2

/-- C7, amended. In exact real arithmetic, for an event with at most 10
objects whose two identification-passing objects `i1`, `i2` have different
pt, each strictly above the pt of every non-passing object, the ranking loop
of `projected_MET()` ends with the cut flow's (lead, sublead), and the written
`delta_phi_1`, `delta_phi_2` are the `deltaPhi` of the missing-energy azimuth
and the azimuths of that leading and subleading object. -/
theorem C7_dominant_pair_indices_agree (e : Event ℝ) (i1 i2 : Nat)
    (h : tightElectrons e = [i1, i2]) (hn : e.nElectron ≤ 10)
    (hne : e.Electron_pt i1 ≠ e.Electron_pt i2)
    (hdom : ∀ k, k < e.nElectron → e.Electron_mvaFall17V2Iso_WP90 k = false →
      e.Electron_pt k < e.Electron_pt i1 ∧ e.Electron_pt k < e.Electron_pt i2) :
    rankLoop e = (((cutFlowRank e i1 i2).1 : Int), ((cutFlowRank e i1 i2).2 : Int)) ∧
    (mulInt32 (e.Electron_pdgId i1) (e.Electron_pdgId i2) < 0 →
      selection e = some (cutFlowRank e i1 i2)) ∧
    ∃ (out : Derived ℝ) (N : Nat),
      (∀ fuel, N ≤ fuel →
        projected_MET_entry Real.pi Real.sin fuel e = some out ∧
        deltaPhi Real.pi fuel e.PuppiMET_phi (e.Electron_phi (cutFlowRank e i1 i2).1) =
          some out.delta_phi_1 ∧
        deltaPhi Real.pi fuel e.PuppiMET_phi (e.Electron_phi (cutFlowRank e i1 i2).2) =
          some out.delta_phi_2) ∧
      (∀ (fuel : Nat) (out2 : Derived ℝ),
        projected_MET_entry Real.pi Real.sin fuel e = some out2 → out2 = out) := by
  have hcount : truncatedCount e = e.nElectron := by
    rw [truncatedCount_eq_min]
    exact min_eq_left hn
  have h12 := tight_pair_lt h
  have h2n := tight_pair_lt_count h
  have h1n : i1 < e.nElectron := lt_trans h12 h2n
  have hi21 : i2 ≠ i1 := fun h' => tight_pair_ne h h'.symm
  have hrank : rankLoop e =
      (((cutFlowRank e i1 i2).1 : Int), ((cutFlowRank e i1 i2).2 : Int)) := by
    by_cases hgt : e.Electron_pt i1 > e.Electron_pt i2
    · have hc : cutFlowRank e i1 i2 = (i1, i2) := by simp [cutFlowRank, hgt]
      rw [hc]
      apply rankLoop_of_dominant e i1 i2 (by rw [hcount]; exact h1n)
        (by rw [hcount]; exact h2n) hgt
      intro k hk hk1 hk2
      rw [hcount] at hk
      exact (hdom k hk (flag_false_of_not_tight h hk hk1 hk2)).2
    · have hlt : e.Electron_pt i1 < e.Electron_pt i2 :=
        lt_of_le_of_ne (not_lt.mp hgt) hne
      have hc : cutFlowRank e i1 i2 = (i2, i1) := by simp [cutFlowRank, hgt, hi21]
      rw [hc]
      apply rankLoop_of_dominant e i2 i1 (by rw [hcount]; exact h2n)
        (by rw [hcount]; exact h1n) hlt
      intro k hk hk2 hk1
      rw [hcount] at hk
      exact (hdom k hk (flag_false_of_not_tight h hk hk1 hk2)).1
  refine ⟨hrank, fun hp => selection_eq_cutFlowRank h hp, ?_⟩
  obtain ⟨d1, d2, N, hrun, huniq, hd1, -, hd2, -⟩ := entry_spec Real.pi_pos Real.sin e
  have hl : (rankLoop e).1 ≠ -1 := by rw [hrank]; simp only; omega
  have hsl : (rankLoop e).2 ≠ -1 := by rw [hrank]; simp only; omega
  refine ⟨_, N, fun fuel hf => ⟨hrun fuel hf, ?_, ?_⟩, huniq⟩
  · have := hd1 hl fuel hf
    rw [hrank] at this
    simpa [fillDerived_delta_phi_1] using this
  · have := hd2 hsl fuel hf
    rw [hrank] at this
    simpa [fillDerived_delta_phi_2] using this

/-- C7 amended, at the event with two tight objects of pt 30 and 22. -/
theorem C7_dominant_pair_indices_agree_witness :
    rankLoop (evPair (1 : ℝ)) =
      (((cutFlowRank (evPair (1 : ℝ)) 0 1).1 : Int),
        ((cutFlowRank (evPair (1 : ℝ)) 0 1).2 : Int)) ∧
    (mulInt32 ((evPair (1 : ℝ)).Electron_pdgId 0) ((evPair (1 : ℝ)).Electron_pdgId 1) < 0 →
      selection (evPair (1 : ℝ)) = some (cutFlowRank (evPair (1 : ℝ)) 0 1)) ∧
    ∃ (out : Derived ℝ) (N : Nat),
      (∀ fuel, N ≤ fuel →
        projected_MET_entry Real.pi Real.sin fuel (evPair (1 : ℝ)) = some out ∧
        deltaPhi Real.pi fuel (evPair (1 : ℝ)).PuppiMET_phi
          ((evPair (1 : ℝ)).Electron_phi (cutFlowRank (evPair (1 : ℝ)) 0 1).1) =
          some out.delta_phi_1 ∧
        deltaPhi Real.pi fuel (evPair (1 : ℝ)).PuppiMET_phi
          ((evPair (1 : ℝ)).Electron_phi (cutFlowRank (evPair (1 : ℝ)) 0 1).2) =
          some out.delta_phi_2) ∧
      (∀ (fuel : Nat) (out2 : Derived ℝ),
        projected_MET_entry Real.pi Real.sin fuel (evPair (1 : ℝ)) = some out2 →
          out2 = out) :=
  C7_dominant_pair_indices_agree (evPair (1 : ℝ)) 0 1 (by decide) (by decide)
    (by norm_num [evPair, mkEvent])
    (by
      intro k hk hf
      have hk2 : k < 2 := hk
      interval_cases k <;> simp [evPair, mkEvent] at hf)

/-! ## Claims on the ranking loop -/

/-- C14. With `n = min(nElectron, 10)`: for `n = 0` the ranking loop leaves
`leadIdx = subleadIdx = -1`; for `n ≥ 1`, `leadIdx` is the smallest index below
`n` of maximal pt; for `n = 1`, `subleadIdx = -1`; for `n ≥ 2`, `subleadIdx` is
an index below `n`, different from `leadIdx`, with
`pt[leadIdx] ≥ pt[subleadIdx] ≥ pt[k]` for every other index `k < n`. -/
theorem C14_ranking_loop_result {α : Type} [LinearOrderedField α] (e : Event α) :
    truncatedCount e = min e.nElectron 10 ∧
    (truncatedCount e = 0 → rankLoop e = (-1, -1)) ∧
    (1 ≤ truncatedCount e → ∃ l : Nat, (rankLoop e).1 = (l : Int) ∧ l < truncatedCount e ∧
      (∀ k, k < truncatedCount e → e.Electron_pt k ≤ e.Electron_pt l) ∧
      (∀ k, k < l → e.Electron_pt k < e.Electron_pt l)) ∧
    (truncatedCount e = 1 → (rankLoop e).2 = -1) ∧
    (2 ≤ truncatedCount e → ∃ l t : Nat, (rankLoop e).1 = (l : Int) ∧
      (rankLoop e).2 = (t : Int) ∧ t < truncatedCount e ∧ t ≠ l ∧
      e.Electron_pt l ≥ e.Electron_pt t ∧
      (∀ k, k < truncatedCount e → k ≠ l → k ≠ t → e.Electron_pt t ≥ e.Electron_pt k)) := by
  obtain ⟨h0, h1, hone, h2⟩ := rankLoop_inv e
  refine ⟨truncatedCount_eq_min e, h0, ?_, hone, ?_⟩
  · intro hn
    obtain ⟨l, hl, hs1, hmax, hfirst⟩ := h1 hn
    exact ⟨l, hs1, hl, hmax, hfirst⟩
  · intro hn
    obtain ⟨l, hl, hs1, hmax, -⟩ := h1 (by omega)
    obtain ⟨t, ht, hs2, htne, htmax⟩ := h2 hn
    have htl : t ≠ l := by
      intro h
      apply htne
      rw [hs1, h]
    refine ⟨l, t, hs1, hs2, ht, htl, hmax t ht, ?_⟩
    intro k hk hkl _
    exact htmax k hk (by rw [hs1]; exact_mod_cast hkl)

theorem truncatedCount_le {α : Type} (e : Event α) : truncatedCount e ≤ MAX_ELECTRONS := by
  rw [truncatedCount_eq_min]
  exact min_le_right _ _

section ReadLemmas

variable {α : Type} [LinearOrderedField α]

theorem rankStepReads_bound (e : Event α) (m : Nat) (s : Int × Int) (h : RankInv e m s)
    (i : Int) (hi : i ∈ rankStepReads e s m) : 0 ≤ i ∧ i ≤ m := by
  obtain ⟨h0, h1, hone, h2⟩ := h
  unfold rankStepReads at hi
  by_cases hs1 : s.1 = -1
  · simp [hs1] at hi
  · have hm : 1 ≤ m := by
      by_contra hc
      have := h0 (by omega)
      rw [this] at hs1
      exact hs1 rfl
    obtain ⟨l, hl, hl1, -, -⟩ := h1 hm
    rw [if_neg hs1] at hi
    have hlead : ∀ x : Int, x = (m : Int) ∨ x = s.1 → 0 ≤ x ∧ x ≤ m := by
      intro x hx
      rcases hx with rfl | rfl <;> constructor <;> omega
    split_ifs at hi with hgt hs2
    · simp only [List.mem_cons, List.mem_singleton, List.not_mem_nil, or_false] at hi
      exact hlead i hi
    · simp only [List.mem_cons, List.mem_singleton, List.not_mem_nil, or_false] at hi
      exact hlead i hi
    · have hm2 : 2 ≤ m := by
        by_contra hc
        exact hs2 (hone (by omega))
      obtain ⟨t, ht, ht2, -, -⟩ := h2 hm2
      simp only [List.mem_cons, List.mem_singleton, List.not_mem_nil, or_false] at hi
      rcases hi with rfl | rfl | rfl | rfl <;> constructor <;> omega

theorem rankTraceFold_spec (e : Event α) (m : Nat) :
    ((List.range m).foldl
      (fun st j => (rankStep e st.1 j, st.2 ++ rankStepReads e st.1 j))
      (((-1 : Int), (-1 : Int)), ([] : List Int))).1 =
        (List.range m).foldl (rankStep e) (-1, -1) ∧
    ∀ i ∈ ((List.range m).foldl
      (fun st j => (rankStep e st.1 j, st.2 ++ rankStepReads e st.1 j))
      (((-1 : Int), (-1 : Int)), ([] : List Int))).2, 0 ≤ i ∧ i < m := by
  induction m with
  | zero => simp
  | succ m ih =>
    obtain ⟨ih1, ih2⟩ := ih
    rw [List.range_succ, List.foldl_append, List.foldl_append]
    simp only [List.foldl_cons, List.foldl_nil]
    refine ⟨by rw [ih1], ?_⟩
    intro i hi
    rcases List.mem_append.mp hi with hi | hi
    · have := ih2 i hi
      constructor <;> omega
    · rw [ih1] at hi
      have := rankStepReads_bound e m _ (rankFold_inv e m) i hi
      constructor <;> omega

end ReadLemmas

/-- C15. For every event, whatever its declared `nElectron`, the count used by
`projected_MET()` is at most the capacity 10 (and is 10 when `nElectron`
exceeds it), and every index with which the ranking loop reads `Electron_pt`
or lines 133-140 read `Electron_phi` lies in 0..9. -/
theorem C15_reads_within_capacity {α : Type} [LinearOrderedField α] (e : Event α) :
    truncatedCount e ≤ 10 ∧
    (e.nElectron > 10 → truncatedCount e = 10) ∧
    (rankTrace e).1 = rankLoop e ∧
    (∀ i ∈ (rankTrace e).2, 0 ≤ i ∧ i ≤ 9) ∧
    (∀ i ∈ phiReads e, 0 ≤ i ∧ i ≤ 9) := by
  have hle : truncatedCount e ≤ 10 := truncatedCount_le e
  obtain ⟨ht1, ht2⟩ := rankTraceFold_spec e (truncatedCount e)
  refine ⟨hle, ?_, ht1, ?_, ?_⟩
  · intro h
    rw [truncatedCount_eq_min]
    exact min_eq_right (le_of_lt h)
  · intro i hi
    have := ht2 i hi
    constructor <;> omega
  · intro i hi
    obtain ⟨h0, h1, hone, h2⟩ := rankLoop_inv e
    unfold phiReads at hi
    rcases List.mem_append.mp hi with hi | hi
    · by_cases hc : (rankLoop e).1 = -1
      · simp [hc] at hi
      · have hm : 1 ≤ truncatedCount e := by
          by_contra hn
          have := h0 (by omega)
          rw [this] at hc
          exact hc rfl
        obtain ⟨l, hl, hl1, -, -⟩ := h1 hm
        simp only [ne_eq, hc, not_false_eq_true, if_true, List.mem_singleton] at hi
        constructor <;> omega
    · by_cases hc : (rankLoop e).2 = -1
      · simp [hc] at hi
      · have hm : 2 ≤ truncatedCount e := by
          by_contra hn
          rcases Nat.eq_zero_or_pos (truncatedCount e) with hz | hp
          · have := h0 hz
            rw [this] at hc
            exact hc rfl
          · exact hc (hone (by omega))
        obtain ⟨t, ht, ht2, -, -⟩ := h2 hm
        simp only [ne_eq, hc, not_false_eq_true, if_true, List.mem_singleton] at hi
        constructor <;> omega

/-! ## `processTree` -/

section ProcessTreeLemmas

variable {α : Type} [LinearOrderedField α]

end ProcessTreeLemmas

section HistLemmas

variable {α : Type} [LinearOrderedField α]

end HistLemmas

section TwoBodyLemmas

variable {α : Type} [LinearOrderedField α] [FloorRing α]

/-- The iteration bound of `normalizeAngleDifference` suffices. -/
theorem deltaPhi_ceil_fuel {pi : α} (hpi : 0 < pi) (a b : α) :
    ∃ r, deltaPhi pi ⌈|a - b| / (2 * pi)⌉₊ a b = some r := by
  have h2pi : 0 < 2 * pi := by linarith
  have hn : |a - b| ≤ 2 * pi * (⌈|a - b| / (2 * pi)⌉₊ : α) := by
    have := Nat.le_ceil (|a - b| / (2 * pi))
    rw [div_le_iff₀ h2pi] at this
    linarith
  have habs1 := le_abs_self (a - b)
  have habs2 := neg_abs_le (a - b)
  have hd1 : a - b ≤ pi + 2 * pi * (⌈|a - b| / (2 * pi)⌉₊ : α) := by linarith
  obtain ⟨k1, hrun1, hle1, hlow1, hzero1⟩ :=
    deltaPhiLoop1_spec ⌈|a - b| / (2 * pi)⌉₊ (a - b) hd1
  have hd2 : -pi - 2 * pi * (⌈|a - b| / (2 * pi)⌉₊ : α) < a - b - 2 * pi * k1 := by
    have hnn : (0 : α) ≤ 2 * pi * (⌈|a - b| / (2 * pi)⌉₊ : α) := le_trans (abs_nonneg _) hn
    by_cases hd : a - b ≤ pi
    · have hk := hzero1 hd
      subst hk
      simp only [Nat.cast_zero, mul_zero, sub_zero]
      linarith
    · have := hlow1 (not_le.mp hd)
      linarith
  obtain ⟨k2, hrun2, -, -, -⟩ :=
    deltaPhiLoop2_spec ⌈|a - b| / (2 * pi)⌉₊ (a - b - 2 * pi * k1) hd2
  refine ⟨a - b - 2 * pi * k1 + 2 * pi * k2, ?_⟩
  unfold deltaPhi
  rw [hrun1 _ le_rfl]
  exact hrun2 _ le_rfl

theorem normalizeAngleDifference_spec {pi : α} (hpi : 0 < pi) (a b : α) :
    -pi < normalizeAngleDifference pi a b ∧ normalizeAngleDifference pi a b ≤ pi ∧
    ∃ k : Int, normalizeAngleDifference pi a b = a - b + 2 * pi * k := by
  obtain ⟨r, hr⟩ := deltaPhi_ceil_fuel hpi a b
  have heq : normalizeAngleDifference pi a b = r := by
    unfold normalizeAngleDifference
    rw [hr]
    rfl
  rw [heq]
  exact deltaPhi_sound hpi hr

theorem normalizeAngleDifference_abs_symm {pi : α} (hpi : 0 < pi) (a b : α) :
    |normalizeAngleDifference pi a b| = |normalizeAngleDifference pi b a| := by
  obtain ⟨hr1, hr2, k, hk⟩ := normalizeAngleDifference_spec hpi a b
  obtain ⟨hs1, hs2, j, hj⟩ := normalizeAngleDifference_spec hpi b a
  rcases lt_or_eq_of_le hr2 with hlt | heq
  · have hs : normalizeAngleDifference pi b a = -normalizeAngleDifference pi a b := by
      apply wrap_unique hpi (by linarith) (by linarith) hs1 hs2 (j + k)
      rw [hj, hk]
      push_cast
      ring
    rw [hs, abs_neg]
  · have hs : normalizeAngleDifference pi b a = pi := by
      apply wrap_unique hpi (by linarith) le_rfl hs1 hs2 (j + k - 1)
      have hd : a - b = pi - 2 * pi * k := by linarith
      rw [hj]
      push_cast
      linarith
    rw [hs, heq]

end TwoBodyLemmas

/-- C13. On the two-body combination as the spec describes it, whatever the
elementary functions: the invariant mass and the transverse momentum of the
sum of two objects are unchanged by swapping them (equal rest mass is not
needed); the `mll` and `ptll` that `processTree` computes in index order are
those that the cut flow computes in (lead, sublead) order, and so is
`|dphi_ll|` when `pi` is positive. For `mll` and `ptll` this holds for every
stand-in of `TLorentzVector` whose addition commutes. -/
theorem C13_two_body_symmetric :
    (∀ (α : Type) [LinearOrderedField α] [FloorRing α] (F : MathFns α) (pi : α)
      (pt1 eta1 phi1 m1 pt2 eta2 phi2 m2 : α),
      (specLorentzOps F pi).M ((specLorentzOps F pi).add
          ((specLorentzOps F pi).SetPtEtaPhiM pt1 eta1 phi1 m1)
          ((specLorentzOps F pi).SetPtEtaPhiM pt2 eta2 phi2 m2)) =
        (specLorentzOps F pi).M ((specLorentzOps F pi).add
          ((specLorentzOps F pi).SetPtEtaPhiM pt2 eta2 phi2 m2)
          ((specLorentzOps F pi).SetPtEtaPhiM pt1 eta1 phi1 m1)) ∧
      (specLorentzOps F pi).Pt ((specLorentzOps F pi).add
          ((specLorentzOps F pi).SetPtEtaPhiM pt1 eta1 phi1 m1)
          ((specLorentzOps F pi).SetPtEtaPhiM pt2 eta2 phi2 m2)) =
        (specLorentzOps F pi).Pt ((specLorentzOps F pi).add
          ((specLorentzOps F pi).SetPtEtaPhiM pt2 eta2 phi2 m2)
          ((specLorentzOps F pi).SetPtEtaPhiM pt1 eta1 phi1 m1)) ∧
      (0 < pi →
        |(specLorentzOps F pi).DeltaPhi
            ((specLorentzOps F pi).SetPtEtaPhiM pt1 eta1 phi1 m1)
            ((specLorentzOps F pi).SetPtEtaPhiM pt2 eta2 phi2 m2)| =
          |(specLorentzOps F pi).DeltaPhi
            ((specLorentzOps F pi).SetPtEtaPhiM pt2 eta2 phi2 m2)
            ((specLorentzOps F pi).SetPtEtaPhiM pt1 eta1 phi1 m1)|)) ∧
    (∀ (α : Type) [LinearOrderedField α] [FloorRing α] (F : MathFns α) (pi : α)
      (e : Event α) (i1 i2 : Nat),
      (dileptonOf (specLorentzOps F pi) e (cutFlowRank e i1 i2)).1 =
        (processTreeDilepton (specLorentzOps F pi) e i1 i2).1 ∧
      (dileptonOf (specLorentzOps F pi) e (cutFlowRank e i1 i2)).2.1 =
        (processTreeDilepton (specLorentzOps F pi) e i1 i2).2.1 ∧
      (0 < pi → (dileptonOf (specLorentzOps F pi) e (cutFlowRank e i1 i2)).2.2 =
        (processTreeDilepton (specLorentzOps F pi) e i1 i2).2.2)) ∧
    (∀ (α : Type) [LinearOrderedField α] (L : LorentzOps α) (e : Event α) (i1 i2 : Nat),
      (∀ u v, L.add u v = L.add v u) →
      (dileptonOf L e (cutFlowRank e i1 i2)).1 = (processTreeDilepton L e i1 i2).1 ∧
      (dileptonOf L e (cutFlowRank e i1 i2)).2.1 = (processTreeDilepton L e i1 i2).2.1) := by
  have hcomm : ∀ (α : Type) [LinearOrderedField α] [FloorRing α] (F : MathFns α) (pi : α)
      (u v : (specLorentzOps F pi).Vec),
      (specLorentzOps F pi).add u v = (specLorentzOps F pi).add v u := by
    intro α _ _ F pi u v
    show FourVector.mk _ _ _ _ = FourVector.mk _ _ _ _
    rw [add_comm u.px, add_comm u.py, add_comm u.pz, add_comm u.E]
  have hdphi : ∀ (α : Type) [LinearOrderedField α] [FloorRing α] (F : MathFns α) (pi : α)
      (u v : (specLorentzOps F pi).Vec), 0 < pi →
      |(specLorentzOps F pi).DeltaPhi u v| = |(specLorentzOps F pi).DeltaPhi v u| := by
    intro α _ _ F pi u v hpi
    exact normalizeAngleDifference_abs_symm hpi _ _
  have hrank : ∀ (α : Type) [LinearOrderedField α] (e : Event α) (i1 i2 : Nat),
      cutFlowRank e i1 i2 = (i1, i2) ∨ cutFlowRank e i1 i2 = (i2, i1) := by
    intro α _ e i1 i2
    unfold cutFlowRank
    by_cases hgt : e.Electron_pt i1 > e.Electron_pt i2
    · left
      simp [hgt]
    · by_cases h21 : i2 = i1
      · left
        simp [hgt, h21]
      · right
        simp [hgt, h21]
  have hgen : ∀ (α : Type) [LinearOrderedField α] (L : LorentzOps α) (e : Event α)
      (i1 i2 : Nat), (∀ u v, L.add u v = L.add v u) →
      (dileptonOf L e (cutFlowRank e i1 i2)).1 = (processTreeDilepton L e i1 i2).1 ∧
      (dileptonOf L e (cutFlowRank e i1 i2)).2.1 = (processTreeDilepton L e i1 i2).2.1 := by
    intro α _ L e i1 i2 hc
    rcases hrank α e i1 i2 with h | h
    · rw [h]
      exact ⟨rfl, rfl⟩
    · rw [h]
      simp only [dileptonOf, processTreeDilepton]
      rw [hc]
      exact ⟨rfl, rfl⟩
  refine ⟨?_, ?_, hgen⟩
  · intro α _ _ F pi pt1 eta1 phi1 m1 pt2 eta2 phi2 m2
    refine ⟨?_, ?_, fun hpi => hdphi α F pi _ _ hpi⟩
    · rw [hcomm]
    · rw [hcomm]
  · intro α _ _ F pi e i1 i2
    obtain ⟨h1, h2⟩ := hgen α (specLorentzOps F pi) e i1 i2 (hcomm α F pi)
    refine ⟨h1, h2, fun hpi => ?_⟩
    rcases hrank α e i1 i2 with h | h
    · rw [h]
      rfl
    · rw [h]
      simp only [dileptonOf, processTreeDilepton]
      exact hdphi α F pi _ _ hpi

/-! ## The stage-4 threshold -/

/-- The Minkowski norm of the sum of two massive four-vectors of transverse
momenta 50 and 40 at pseudorapidity 0, the second at an azimuth of non-positive
cosine `c` and sine `s`, lies between 60 and 120. -/
theorem pair_mass_window (c s : ℝ) (hc : c ≤ 0) (hc1 : -1 ≤ c) (hcs : c ^ 2 + s ^ 2 = 1) :
    60 <
      √((√(50 * 50 + 511 / 1000000 * (511 / 1000000)) +
                  √(40 * c * (40 * c) + 40 * s * (40 * s) +
                      511 / 1000000 * (511 / 1000000))) *
                (√(50 * 50 + 511 / 1000000 * (511 / 1000000)) +
                  √(40 * c * (40 * c) + 40 * s * (40 * s) +
                      511 / 1000000 * (511 / 1000000))) -
              (50 + 40 * c) * (50 + 40 * c) -
            40 * s * (40 * s) -
          0) ∧
    √((√(50 * 50 + 511 / 1000000 * (511 / 1000000)) +
                  √(40 * c * (40 * c) + 40 * s * (40 * s) +
                      511 / 1000000 * (511 / 1000000))) *
                (√(50 * 50 + 511 / 1000000 * (511 / 1000000)) +
                  √(40 * c * (40 * c) + 40 * s * (40 * s) +
                      511 / 1000000 * (511 / 1000000))) -
              (50 + 40 * c) * (50 + 40 * c) -
            40 * s * (40 * s) -
          0) <
      120 := by
  have h2 : (40 * c * (40 * c) + 40 * s * (40 * s) + 511 / 1000000 * (511 / 1000000) : ℝ)
      = 1600 + 511 / 1000000 * (511 / 1000000) := by nlinarith
  rw [h2]
  set E1 : ℝ := √(50 * 50 + 511 / 1000000 * (511 / 1000000)) with hE1
  set E2 : ℝ := √(1600 + 511 / 1000000 * (511 / 1000000)) with hE2
  have e1sq : E1 * E1 = 50 * 50 + 511 / 1000000 * (511 / 1000000) :=
    Real.mul_self_sqrt (by norm_num)
  have e2sq : E2 * E2 = 1600 + 511 / 1000000 * (511 / 1000000) :=
    Real.mul_self_sqrt (by norm_num)
  have e1lo : 50 ≤ E1 := Real.le_sqrt_of_sq_le (by norm_num)
  have e2lo : 40 ≤ E2 := Real.le_sqrt_of_sq_le (by norm_num)
  have e1hi : E1 ≤ 51 := by
    rw [hE1]
    exact Real.sqrt_le_iff.mpr ⟨by norm_num, by norm_num⟩
  have e2hi : E2 ≤ 41 := by
    rw [hE2]
    exact Real.sqrt_le_iff.mpr ⟨by norm_num, by norm_num⟩
  have hlo : 4000 ≤ E1 * E2 * 2 := by nlinarith
  have hhi : E1 * E2 * 2 ≤ 4182 := by nlinarith
  constructor
  · apply Real.lt_sqrt_of_sq_lt
    nlinarith
  · rw [Real.sqrt_lt (by nlinarith) (by norm_num)]
    nlinarith

/-- C8, evaluated. With the four-vector relations of the spec on real
functions, two tight opposite-sign electrons of pt 50 and 40 at pseudorapidity
0 and azimuths 0 and 3 have a pair mass between 60 and 120, and with a stored
`projected_MET` of 22 the loop counts the event at stages 1 to 4 although 22 is
not below 20; for every event of at most 10 objects and every stand-in of
`TLorentzVector`, the stage-4 counter (below 2^31 - 1) moves exactly when
stage 3 was reached and `projected_MET < 25`. -/
theorem C8_stage4_counts_projected_MET_22 :
    (Electron_Cut_Flow
      (specLorentzOps ⟨Real.cos, Real.sin, Real.sinh, Real.sqrt, fun y x => Complex.arg ⟨x, y⟩⟩
        Real.pi) [evZ 3 22]).2.eventAfterstage3 = 1 ∧
    (Electron_Cut_Flow
      (specLorentzOps ⟨Real.cos, Real.sin, Real.sinh, Real.sqrt, fun y x => Complex.arg ⟨x, y⟩⟩
        Real.pi) [evZ 3 22]).2.eventAfterstage4 = 1 ∧
    (evZ (3 : ℝ) 22).nElectron = 2 ∧
    ¬ ((evZ (3 : ℝ) 22).projected_MET < 20) ∧
    (∀ (α : Type) [LinearOrderedField α] (L : LorentzOps α) (c : Counters) (e : Event α),
      e.nElectron ≤ 10 → c.FitsInt →
      ((cutFlowStep L c e).eventAfterstage4 = c.eventAfterstage4 + 1 ↔
        (reachesUpTo L 3 e = true ∧ e.projected_MET < 25))) := by
  have t : tightElectrons (evZ (3 : ℝ) 22) = [0, 1] := by decide
  have hm : mulInt32 ((evZ (3 : ℝ) 22).Electron_pdgId 0)
      ((evZ (3 : ℝ) 22).Electron_pdgId 1) < 0 := by decide
  have hsel : selection (evZ (3 : ℝ) 22) = some (0, 1) := by
    rw [selection_of_tight t, if_pos hm]
    norm_num [evZ, mkEvent]
  have hs2 : stage2 (evZ (3 : ℝ) 22) = true := by
    rw [stage2_of_tight t]
    norm_num [evZ, mkEvent]
  have hs4 : stage4 (evZ (3 : ℝ) 22) = true := by
    norm_num [stage4, evZ, mkEvent]
  have hs3 : stage3 (specLorentzOps
      ⟨Real.cos, Real.sin, Real.sinh, Real.sqrt, fun y x => Complex.arg ⟨x, y⟩⟩ Real.pi)
      (evZ (3 : ℝ) 22) = true := by
    unfold stage3
    rw [hsel]
    simp only [decide_eq_true_eq]
    simp only [dileptonOf, specLorentzOps, evZ, mkEvent, electronMass, List.getD_cons_zero,
      List.getD_cons_succ, Real.cos_zero, Real.sin_zero, Real.sinh_zero,
      mul_zero, mul_one, add_zero, zero_add]
    have hc : Real.cos 3 ≤ 0 := by
      apply Real.cos_nonpos_of_pi_div_two_le_of_le
      · linarith [Real.pi_le_four]
      · linarith [Real.pi_gt_three]
    exact pair_mass_window (Real.cos 3) (Real.sin 3) hc (Real.neg_one_le_cos 3)
      (Real.cos_sq_add_sin_sq 3)
  refine ⟨?_, ?_, ?_, ?_, ?_⟩
  · simp [Electron_Cut_Flow, cutFlowLoop_eq, Counters.zero, reachesUpTo, hsel, hs2, hs3]
  · simp [Electron_Cut_Flow, cutFlowLoop_eq, Counters.zero, reachesUpTo, hsel, hs2, hs3, hs4]
  · rfl
  · norm_num [evZ, mkEvent]
  · intro α _ L c e _ _
    rw [cutFlowStep_eq]
    simp only [reachesUpTo, stage4]
    cases (selection e).isSome <;> cases stage2 e <;> cases stage3 L e <;>
      by_cases h : e.projected_MET < 25 <;> simp [h]

end MscDiss
